import Mathlib

/-!
Verification development for the snipSmart repository.

The repository's core is a pair of text-extraction engines:
* `snipJson` (src/snipJson.js): locates, validates, optionally repairs and
  decodes an embedded JSON value inside noisy text;
* `snipByTag` (src/snipByTag.js): locates and validates an embedded HTML/XML
  element using a stack of tag names;
plus a thin dispatcher `snipSmart` (src/index.js).

Shallow embedding conventions:
* JavaScript strings are modelled as `List Char`; indexed reads
  (`content[i]`, which yield `undefined` out of bounds) are modelled with
  `charAt?` returning `Option Char`.
* Arbitrary JavaScript input values are modelled by `JsVal`: a string, a
  decoded JSON value, or any other (non-string) value.
* `JSON.parse`, the only throwing operation used by the engines, is modelled
  by the executable decoder `jsonParse : List Char → Except String Json`;
  the source's try/catch wrapper (`parseJsonSafely`) corresponds to matching
  on the `Except` result, so decode failures are values, never exceptions.
* Index-driven `while`/`for` loops that advance by a variable amount are
  modelled with an explicit fuel parameter (structural recursion); the
  wrappers pass fuel `length + 1`, which is shown/used to be sufficient.
-/

namespace SnipSmart

/-- `content[i]` in JavaScript: the character at index `i`, or none
(`undefined`) when out of bounds. -/
def charAt? (cs : List Char) (i : Nat) : Option Char :=
  cs.get? i

/-- `content.slice(a, b)` in JavaScript (for `0 ≤ a ≤ b`). -/
def sliceL (cs : List Char) (a b : Nat) : List Char :=
  (cs.drop a).take (b - a)

/-- Whether `p` is an initial segment of `l` (used to recognise literals). -/
def lstarts : List Char → List Char → Bool
  | [], _ => true
  | _ :: _, [] => false
  | p :: ps, c :: cs => p = c && lstarts ps cs

/-- `content.indexOf(c)` in JavaScript, with `none` for `-1`. -/
def jsIndexOf : List Char → Char → Option Nat
  | [], _ => none
  | a :: rest, c => if a = c then some 0 else (jsIndexOf rest c).map (· + 1)

/-- `content.lastIndexOf(c)` in JavaScript, with `none` for `-1`. -/
def jsLastIndexOf (cs : List Char) (c : Char) : Option Nat :=
  (jsIndexOf cs.reverse c).map (fun p => cs.length - 1 - p)

/-- Characters removed by JavaScript's `String.prototype.trim` and matched
by the regex class `\s` (ASCII portion, which covers the inputs considered
here). -/
def jsWsChar (c : Char) : Bool :=
  c = ' ' ∨ c = '\t' ∨ c = '\n' ∨ c = '\r' ∨ c = '\x0b' ∨ c = '\x0c'

/-- `s.trim()` in JavaScript. -/
def jsTrimL (l : List Char) : List Char :=
  ((l.dropWhile jsWsChar).reverse.dropWhile jsWsChar).reverse

/-- ASCII case folding, modelling `s.toLowerCase()` on the tag names
accepted by the tag engine (word characters, colon, hyphen). -/
def jsToLower (l : List Char) : List Char :=
  l.map (fun c => if 'A' ≤ c ∧ c ≤ 'Z' then Char.ofNat (c.toNat + 32) else c)

/-! ### The JSON value model and the decoder (`JSON.parse`)

`Json` is the model of a decoded JavaScript JSON value.  Numbers are kept
in the syntactic form in which they were parsed (sign, integer digits,
fraction digits, exponent digits): none of the verified properties depend
on numeric semantics. -/

inductive Json where
  | null : Json
  | bool (b : Bool) : Json
  | num (neg : Bool) (ip : List Char) (fp : List Char) (ep : List Char) : Json
  | str (s : List Char) : Json
  | arr (elems : List Json) : Json
  | obj (fields : List (List Char × Json)) : Json
  deriving Repr

/-- JSON interelement whitespace accepted by `JSON.parse`. -/
def isJsonWs (c : Char) : Bool :=
  c = ' ' ∨ c = '\t' ∨ c = '\n' ∨ c = '\r'

def skipJsonWs (cs : List Char) : List Char :=
  cs.dropWhile isJsonWs

def hexVal? (c : Char) : Option Nat :=
  if '0' ≤ c ∧ c ≤ '9' then some (c.toNat - 48)
  else if 'a' ≤ c ∧ c ≤ 'f' then some (c.toNat - 87)
  else if 'A' ≤ c ∧ c ≤ 'F' then some (c.toNat - 55)
  else none

/-- Single-character escapes in JSON string literals. -/
def escChar? (c : Char) : Option Char :=
  if c = '"' then some '"'
  else if c = '\\' then some '\\'
  else if c = '/' then some '/'
  else if c = 'b' then some '\x08'
  else if c = 'f' then some '\x0c'
  else if c = 'n' then some '\n'
  else if c = 'r' then some '\r'
  else if c = 't' then some '\t'
  else none

/-- Body of a JSON string literal (after the opening quote): returns the
decoded characters and the remaining input after the closing quote.
Code points that are not valid `Char`s (lone surrogates) are modelled as
`Char.ofNat`'s default; the verified properties do not exercise them. -/
def parseStringBody : List Char → Except String (List Char × List Char)
  | [] => .error "Unterminated string in JSON"
  | '"' :: rest => .ok ([], rest)
  | '\\' :: 'u' :: h1 :: h2 :: h3 :: h4 :: rest =>
    match hexVal? h1, hexVal? h2, hexVal? h3, hexVal? h4 with
    | some a, some b, some c, some d =>
      (fun p : List Char × List Char =>
        (Char.ofNat (4096 * a + 256 * b + 16 * c + d) :: p.1, p.2)) <$>
        parseStringBody rest
    | _, _, _, _ => .error "Bad Unicode escape in JSON"
  | '\\' :: 'u' :: _ => .error "Bad Unicode escape in JSON"
  | '\\' :: c :: rest =>
    match escChar? c with
    | some ec => (fun p : List Char × List Char => (ec :: p.1, p.2)) <$> parseStringBody rest
    | none => .error "Bad escaped character in JSON string"
  | ['\\'] => .error "Unterminated string in JSON"
  | c :: rest =>
    if c.toNat < 32 then .error "Bad control character in string literal in JSON"
    else (fun p : List Char × List Char => (c :: p.1, p.2)) <$> parseStringBody rest

def splitDigits (cs : List Char) : List Char × List Char :=
  (cs.takeWhile Char.isDigit, cs.dropWhile Char.isDigit)

/-- Exponent part of a JSON number (possibly absent). -/
def parseExpPart (neg : Bool) (ip fp : List Char) (cs : List Char) :
    Except String (Json × List Char) :=
  match cs with
  | e :: cs1 =>
    if e = 'e' ∨ e = 'E' then
      let (sgn, cs2) :=
        match cs1 with
        | '+' :: r => (['+'], r)
        | '-' :: r => (['-'], r)
        | _ => (([] : List Char), cs1)
      let (ed, cs3) := splitDigits cs2
      if ed = [] then .error "Exponent part is missing a number in JSON"
      else .ok (.num neg ip fp (sgn ++ ed), cs3)
    else .ok (.num neg ip fp [], cs)
  | [] => .ok (.num neg ip fp [], [])

/-- JSON number grammar: `-?(0|[1-9][0-9]*)(\.[0-9]+)?([eE][+-]?[0-9]+)?`. -/
def parseNumber (cs : List Char) : Except String (Json × List Char) :=
  let (neg, cs1) := match cs with | '-' :: r => (true, r) | _ => (false, cs)
  match cs1 with
  | c :: _ =>
    if ¬ c.isDigit then .error "No number after minus sign in JSON"
    else
      let (ip, cs2) := splitDigits cs1
      if 1 < ip.length ∧ ip.head? = some '0' then .error "Unexpected number in JSON"
      else
        match cs2 with
        | '.' :: cs3 =>
          let (fp, cs4) := splitDigits cs3
          if fp = [] then .error "Unterminated fractional number in JSON"
          else parseExpPart neg ip fp cs4
        | _ => parseExpPart neg ip [] cs2
  | [] => .error "Unexpected end of JSON input"

mutual

/-- One JSON value, with leading whitespace allowed: the recursive core of
the `JSON.parse` model. Fuel decreases on every (mutual) call; the top-level
wrapper supplies enough fuel that exhaustion is unreachable. -/
def parseValue : Nat → List Char → Except String (Json × List Char)
  | 0, _ => .error "JSON input too deeply nested"
  | fuel + 1, cs =>
    match skipJsonWs cs with
    | [] => .error "Unexpected end of JSON input"
    | '{' :: rest =>
      match skipJsonWs rest with
      | '}' :: r2 => .ok (.obj [], r2)
      | cs2 => (fun p : List (List Char × Json) × List Char => (.obj p.1, p.2)) <$>
          parseMembers fuel cs2
    | '[' :: rest =>
      match skipJsonWs rest with
      | ']' :: r2 => .ok (.arr [], r2)
      | cs2 => (fun p : List Json × List Char => (.arr p.1, p.2)) <$>
          parseElements fuel cs2
    | '"' :: rest => (fun p : List Char × List Char => (.str p.1, p.2)) <$> parseStringBody rest
    | 't' :: rest =>
      if lstarts ['r', 'u', 'e'] rest then .ok (.bool true, rest.drop 3)
      else .error "Unexpected token in JSON"
    | 'f' :: rest =>
      if lstarts ['a', 'l', 's', 'e'] rest then .ok (.bool false, rest.drop 4)
      else .error "Unexpected token in JSON"
    | 'n' :: rest =>
      if lstarts ['u', 'l', 'l'] rest then .ok (.null, rest.drop 3)
      else .error "Unexpected token in JSON"
    | c :: rest =>
      if c = '-' ∨ c.isDigit then parseNumber (c :: rest)
      else .error "Unexpected token in JSON"

/-- Comma-separated array elements, positioned at the first element. -/
def parseElements : Nat → List Char → Except String (List Json × List Char)
  | 0, _ => .error "JSON input too deeply nested"
  | fuel + 1, cs => do
    let (v, cs1) ← parseValue fuel cs
    match skipJsonWs cs1 with
    | ',' :: cs2 => do
      let (vs, cs3) ← parseElements fuel cs2
      .ok (v :: vs, cs3)
    | ']' :: cs2 => .ok ([v], cs2)
    | _ => .error "Expected comma or closing bracket after array element in JSON"

/-- Comma-separated object members, positioned at the first member's key. -/
def parseMembers : Nat → List Char → Except String (List (List Char × Json) × List Char)
  | 0, _ => .error "JSON input too deeply nested"
  | fuel + 1, cs =>
    match cs with
    | '"' :: r => do
      let (k, r2) ← parseStringBody r
      match skipJsonWs r2 with
      | ':' :: r3 => do
        let (v, r4) ← parseValue fuel r3
        match skipJsonWs r4 with
        | ',' :: r5 => do
          let (kvs, r6) ← parseMembers fuel (skipJsonWs r5)
          .ok ((k, v) :: kvs, r6)
        | '}' :: r5 => .ok ([(k, v)], r5)
        | _ => .error "Expected comma or closing brace after object member in JSON"
      | _ => .error "Expected colon after property name in JSON"
    | _ => .error "Expected property name in JSON"

end

/-- The model of `JSON.parse`: decode one JSON value and require only
whitespace after it.  A `.error` models a thrown `SyntaxError`; the engines
only ever consume it through a catch (a match on this `Except`). -/
def jsonParse (cs : List Char) : Except String Json :=
  match parseValue (2 * cs.length + 4) cs with
  | .error e => .error e
  | .ok (v, rest) =>
    if skipJsonWs rest = [] then .ok v
    else .error "Unexpected non-whitespace character after JSON data"

def hexDigit (n : Nat) : Char :=
  if n < 10 then Char.ofNat (48 + n) else Char.ofNat (87 + n)

/-- Escaping of one character inside a serialised JSON string. -/
def escapeJsonChar (c : Char) : List Char :=
  if c = '"' then ['\\', '"']
  else if c = '\\' then ['\\', '\\']
  else if c = '\n' then ['\\', 'n']
  else if c = '\r' then ['\\', 'r']
  else if c = '\t' then ['\\', 't']
  else if c = '\x08' then ['\\', 'b']
  else if c = '\x0c' then ['\\', 'f']
  else if c.toNat < 32 then
    ['\\', 'u', '0', '0', hexDigit (c.toNat / 16), hexDigit (c.toNat % 16)]
  else [c]

def stringifyStr (s : List Char) : List Char :=
  '"' :: (s.map escapeJsonChar).flatten ++ ['"']

mutual

/-- Model of `JSON.stringify` (no indentation), used to re-serialise a
decoded value when feeding an engine's output back to it.  Numbers are
re-rendered from their parsed syntactic form. -/
def jsonStringify : Json → List Char
  | .null => "null".data
  | .bool true => "true".data
  | .bool false => "false".data
  | .num neg ip fp ep =>
    (if neg then ['-'] else []) ++ ip ++
      (if fp = [] then [] else '.' :: fp) ++
      (if ep = [] then [] else 'e' :: ep)
  | .str s => stringifyStr s
  | .arr elems => '[' :: stringifyElems elems ++ [']']
  | .obj fields => '{' :: stringifyFields fields ++ ['}']

def stringifyElems : List Json → List Char
  | [] => []
  | [v] => jsonStringify v
  | v :: rest => jsonStringify v ++ ',' :: stringifyElems rest

def stringifyFields : List (List Char × Json) → List Char
  | [] => []
  | [kv] => stringifyStr kv.1 ++ ':' :: jsonStringify kv.2
  | kv :: rest => stringifyStr kv.1 ++ ':' :: jsonStringify kv.2 ++ ',' :: stringifyFields rest

end

/-! ### The shared Result model -/

/-- A JavaScript value as far as the engines observe it: a string, a decoded
JSON value, or any other (non-string) value. -/
inductive JsVal where
  | str (s : List Char) : JsVal
  | json (j : Json) : JsVal
  | other : JsVal
  deriving Repr

/-- The shared outcome record produced by both engines and the dispatcher:
`{ status, comments, data, raw }`, with `none` modelling `null`. -/
structure Result where
  status : String
  comments : String
  data : Option JsVal
  raw : Option JsVal
  deriving Repr

/-! ### The JSON engine's sanitizer (src/snipJson.js, `sanitizeContent`)

Each regex replacement is modelled by a left-to-right scanner with the same
match policy as the JavaScript global regex it embeds. -/

/-- One attempted match of `['"]\s*\+\s*['"]?` at the head of the input:
on success returns the input after the (greedy) match. -/
def matchConcatArtifact : List Char → Option (List Char)
  | c :: rest =>
    if c = '\'' ∨ c = '"' then
      match rest.dropWhile jsWsChar with
      | '+' :: r2 =>
        let r3 := r2.dropWhile jsWsChar
        match r3 with
        | q :: r4 => if q = '\'' ∨ q = '"' then some r4 else some r3
        | [] => some r3
      | _ => none
    else none
  | [] => none

/-- `content.replace(/['"]\s*\+\s*['"]?/g, "")`: remove quote-plus
string-concatenation artifacts.  Fuel-driven; each step consumes at least
one character, so fuel `length + 1` is exact. -/
def stripConcatF : Nat → List Char → List Char
  | 0, rest => rest
  | _ + 1, [] => []
  | fuel + 1, c :: rest =>
    match matchConcatArtifact (c :: rest) with
    | some rem => stripConcatF fuel rem
    | none => c :: stripConcatF fuel rest

def stripConcat (l : List Char) : List Char :=
  stripConcatF (l.length + 1) l

/-- `content.replace(/^```json|```$/gm, "")`: remove a literal ```` ```json ````
at a line start, or ```` ``` ```` at a line end.  `atStart` tracks whether the
current position is at the start of a line. -/
def stripFencesF : Nat → Bool → List Char → List Char
  | 0, _, rest => rest
  | _ + 1, _, [] => []
  | fuel + 1, atStart, c :: rest =>
    if atStart ∧ lstarts ['`', '`', '`', 'j', 's', 'o', 'n'] (c :: rest) then
      stripFencesF fuel false ((c :: rest).drop 7)
    else if lstarts ['`', '`', '`'] (c :: rest) ∧
        ((c :: rest).drop 3 = [] ∨ charAt? ((c :: rest).drop 3) 0 = some '\n' ∨
          charAt? ((c :: rest).drop 3) 0 = some '\r') then
      stripFencesF fuel false ((c :: rest).drop 3)
    else
      c :: stripFencesF fuel (c = '\n' ∨ c = '\r') rest

def stripFences (l : List Char) : List Char :=
  stripFencesF (l.length + 1) true l

/-- `content.replace(/^['"]|['"]$/g, "")`: remove one enclosing quote at the
very start and one at the very end. -/
def stripOuterQuotes (l : List Char) : List Char :=
  let l1 :=
    match l with
    | c :: rest => if c = '\'' ∨ c = '"' then rest else l
    | [] => l
  match l1.getLast? with
  | some c => if c = '\'' ∨ c = '"' then l1.dropLast else l1
  | none => l1

/-- `content.replace(/`/g, "")`: strip stray backticks. -/
def stripBackticks (l : List Char) : List Char :=
  l.filter (fun c => ¬ c = '`')

/-- `content.replace(/\\n/g, "\n")`: turn escaped `\n` sequences into real
newlines. -/
def unescapeNewlines : List Char → List Char
  | '\\' :: 'n' :: rest => '\n' :: unescapeNewlines rest
  | c :: rest => c :: unescapeNewlines rest
  | [] => []

/-- `sanitizeContent` in src/snipJson.js: the engine's own normalisation
pass, applied to its input before any scanning. -/
def sanitizeContent (l : List Char) : List Char :=
  jsTrimL (unescapeNewlines (stripBackticks (stripOuterQuotes (stripFences (stripConcat l)))))

/-! ### The JSON engine (src/snipJson.js, `snipJson`) -/

/-- The delimiter table `PAIRS = { "{": "}", "[": "]" }`; `none` models an
`undefined` lookup. -/
def pairs? (c : Char) : Option Char :=
  if c = '{' then some '}' else if c = '[' then some ']' else none

/-- `PAIRS[c]` where the source guarantees `c` is an opening delimiter; the
fallback is unreachable on the stacks the scanner builds. -/
def pairCloseD (c : Char) : Char :=
  (pairs? c).getD '?'

def isOpeningBrace (c : Char) : Bool := c = '{' ∨ c = '['
def isClosingBrace (c : Char) : Bool := c = '}' ∨ c = ']'

/-- Step 1 of the engine: the candidate start index, i.e. the smaller of
`content.indexOf("{")` and `content.indexOf("[")` (with `-1` handling). -/
def startIndex (content : List Char) : Option Nat :=
  match jsIndexOf content '{', jsIndexOf content '[' with
  | none, none => none
  | none, some a => some a
  | some o, none => some o
  | some o, some a => some (min o a)

/-- Fail-fast result for invalid input, shared by both engines. -/
def invalidInputResult : Result :=
  { status := "fail", comments := "Invalid input: content must be a non-empty string."
    data := none, raw := none }

/-- Step 2 of the engine (fast path): slice from the start to the *last*
occurrence of the expected closing delimiter and try to decode; `some r`
when that parse succeeds, `none` when the fast path falls through to the
structural scan. -/
def fastPathResult (content : List Char) (start : Nat) : Option Result :=
  match (charAt? content start).bind pairs? with
  | none => none
  | some ec =>
    match jsLastIndexOf content ec with
    | none => none
    | some lc =>
      if start < lc then
        match jsonParse (sliceL content start (lc + 1)) with
        | .ok d =>
          some { status := "success", comments := "JSON successfully extracted and parsed."
                 data := some (.json d), raw := none }
        | .error _ => none
      else none

/-- Outcome of the structural bracket scan (step 3 of the engine). -/
inductive ScanOut where
  | mismatch (i : Nat) : ScanOut
  | balanced (i : Nat) : ScanOut
  | exhausted (stack : List Char) : ScanOut
  deriving Repr, DecidableEq

/-- The structural scan itself: walk the suffix of the content starting at
absolute index `i`, pushing opening delimiters and popping on closers; stop
with `.balanced i` the first time the stack returns to empty, with
`.mismatch i` on a popped/expected mismatch (or a closer on an empty stack),
and with `.exhausted stack` at end of input. -/
def scanLoopAux : List Char → Nat → List Char → ScanOut
  | [], _, stack => .exhausted stack
  | c :: rest, i, stack =>
    if isOpeningBrace c then scanLoopAux rest (i + 1) (c :: stack)
    else if isClosingBrace c then
      match stack with
      | [] => .mismatch i
      | last :: stack' =>
        if ¬ pairs? last = some c then .mismatch i
        else if stack' = [] then .balanced i
        else scanLoopAux rest (i + 1) stack'
    else scanLoopAux rest (i + 1) stack

def scanLoop (content : List Char) (start : Nat) : ScanOut :=
  scanLoopAux (content.drop start) start []

/-- Step 4 of the engine on a balanced candidate: decode the slice; success
is `success`, a decode failure on the structurally valid slice is the
engine's data-less `check`. -/
def finalizeBalanced (candidate : List Char) : Result :=
  match jsonParse candidate with
  | .ok d =>
    { status := "success", comments := "JSON successfully extracted and parsed."
      data := some (.json d), raw := none }
  | .error e =>
    { status := "check", comments := "Structurally valid JSON failed to parse: " ++ e
      data := none, raw := some (.str candidate) }

/-- The single-repair branch (stack exhausted with exactly one open
delimiter `la`): append the matching closer to the slice from the start to
end-of-text and try to decode the repaired candidate. -/
def repairOutcome (content : List Char) (start : Nat) (la : Char) : Result :=
  match jsonParse (content.drop start ++ [pairCloseD la]) with
  | .ok d =>
    { status := "check", comments := "One missing closing bracket auto-added. Please verify."
      data := some (.json d), raw := none }
  | .error e =>
    { status := "fail", comments := "Auto-closure attempted but parsing failed: " ++ e
      data := none, raw := some (.str (content.drop start ++ [pairCloseD la])) }

/-- Everything after the fast path: run the structural scan and classify
its outcome exactly as the source does. -/
def jsonPostScan (content : List Char) (start : Nat) : Result :=
  match scanLoop content start with
  | .mismatch i =>
    { status := "fail", comments := "Bracket mismatch detected."
      data := none, raw := some (.str (sliceL content start (i + 1))) }
  | .exhausted stack =>
    match stack with
    | [la] => repairOutcome content start la
    | _ =>
      { status := "fail", comments := "Unbalanced JSON structure."
        data := none, raw := some (.str (content.drop start)) }
  | .balanced endI => finalizeBalanced (sliceL content start (endI + 1))

/-- The engine body once a candidate start has been located: try the fast
path, otherwise scan and classify. -/
def jsonMainAt (content : List Char) (start : Nat) : Result :=
  match fastPathResult content start with
  | some r => r
  | none => jsonPostScan content start

/-- The engine body on sanitized content: locate the start, then
`jsonMainAt`. -/
def jsonMain (content : List Char) : Result :=
  match startIndex content with
  | none =>
    { status := "fail", comments := "No JSON structure found.", data := none, raw := none }
  | some start => jsonMainAt content start

/-- `snipJson` (src/snipJson.js): validate the input, sanitize it, then run
the engine body. -/
def snipJson (v : JsVal) : Result :=
  match v with
  | .str s => if s = [] then invalidInputResult else jsonMain (sanitizeContent s)
  | _ => invalidInputResult

/-! ### The tag engine (src/snipByTag.js, `snipByTag`) -/

/-- Tag-engine options object, default `{ caseSensitive: false }`. -/
structure TagCfg where
  caseSensitive : Bool := false

/-- The regex class `[\w:-]` used to read a tag name. -/
def isTagNameChar (c : Char) : Bool :=
  c.isAlphanum ∨ c = '_' ∨ c = ':' ∨ c = '-'

/-- The attribute-skipping loop: from index `n` into the suffix `l`, advance
until `>` (not consumed), detecting an inline self-closing `/>` marker
(consumed); returns the advance count and the self-closing flag. -/
def skipToTagEndAux : List Char → Nat → Nat × Bool
  | [], n => (n, false)
  | c :: rest, n =>
    if c = '>' then (n, false)
    else if c = '/' ∧ charAt? rest 0 = some '>' then (n + 2, true)
    else skipToTagEndAux rest (n + 1)

def skipToTagEnd (cs : List Char) (i : Nat) : Nat × Bool :=
  (i + (skipToTagEndAux (cs.drop i) 0).1, (skipToTagEndAux (cs.drop i) 0).2)

/-- First index at or after `i` whose character is not a tag-name character
(the exit index of the tag-name reading loop). -/
def scanNameEnd (cs : List Char) (i : Nat) : Nat :=
  i + ((cs.drop i).takeWhile isTagNameChar).length

/-- Result of processing one tag whose `<` sits at some index: either the
name was empty (`invalidName`, carrying the index reached), or a tag with
its closing/self-closing flags, folded name, and the index just past it. -/
inductive TagStepOut where
  | invalidName (nameEnd : Nat) : TagStepOut
  | tag (closing : Bool) (name : List Char) (selfClosing : Bool) (next : Nat) : TagStepOut
  deriving Repr, DecidableEq

/-- The folded tag name read from index `i2`. -/
def readTagName (cs : List Char) (cfg : TagCfg) (i2 : Nat) : List Char :=
  if cfg.caseSensitive then jsTrimL (sliceL cs i2 (scanNameEnd cs i2))
  else jsToLower (jsTrimL (sliceL cs i2 (scanNameEnd cs i2)))

/-- Index just past the processed tag: skip attributes from the name end,
then consume a final `>` if present. -/
def tagNext (cs : List Char) (i2 : Nat) : Nat :=
  if charAt? cs (skipToTagEnd cs (scanNameEnd cs i2)).1 = some '>'
  then (skipToTagEnd cs (scanNameEnd cs i2)).1 + 1
  else (skipToTagEnd cs (scanNameEnd cs i2)).1

/-- The part of tag processing after the `</` detection, with `i2` the
index where the name starts. -/
def tagAfterName (cs : List Char) (cfg : TagCfg) (closing : Bool) (i2 : Nat) : TagStepOut :=
  if jsTrimL (sliceL cs i2 (scanNameEnd cs i2)) = [] then .invalidName (scanNameEnd cs i2)
  else
    .tag closing (readTagName cs cfg i2) (skipToTagEnd cs (scanNameEnd cs i2)).2
      (tagNext cs i2)

/-- Process the single tag whose `<` is at index `i`: detect `</`, read and
fold the name, skip attributes to the tag end, and consume a final `>`. -/
def processTag (cs : List Char) (cfg : TagCfg) (i : Nat) : TagStepOut :=
  if charAt? cs (i + 1) = some '/' then tagAfterName cs cfg true (i + 2)
  else tagAfterName cs cfg false (i + 1)

/-- Abstract outcome of the tag engine's scanning loop, rendered to a
`Result` by `renderTag`.  Indices are absolute positions in the content:
`success start stop` is a balanced span, `invalidName`/`mismatch` carry the
snippet start and the index reached, `endUnclosed` carries the remaining
stack and snippet start at end of input, `endIncomplete` is the (dead)
started-but-balanced end-of-input state, `noTags` means no `<` was found. -/
inductive TagOut where
  | success (start stop : Nat) : TagOut
  | invalidName (ss : Option Nat) (stop : Nat) : TagOut
  | mismatch (expected : Option (List Char)) (found : List Char) (ss : Option Nat) (stop : Nat) : TagOut
  | endUnclosed (stack : List (List Char)) (ss : Option Nat) : TagOut
  | endIncomplete (ss : Nat) : TagOut
  | noTags : TagOut
  deriving Repr, DecidableEq

/-- Shift all content indices in a loop outcome by `k`: relates a run on
`cs.drop k` to the corresponding run on `cs` (used for the idempotence
proof). -/
def shiftTagOut (k : Nat) : TagOut → TagOut
  | .success a b => .success (k + a) (k + b)
  | .invalidName ss stop => .invalidName (ss.map (k + ·)) (k + stop)
  | .mismatch e f ss stop => .mismatch e f (ss.map (k + ·)) (k + stop)
  | .endUnclosed st ss => .endUnclosed st (ss.map (k + ·))
  | .endIncomplete ss => .endIncomplete (k + ss)
  | .noTags => .noTags

/-- One iteration of the tag engine's `while` loop, at read index `i` with
tag-name stack `stack` (head = most recently opened) and recorded snippet
start `ss`: either the updated loop state (`.inl`) or a final outcome
(`.inr`). -/
def tagStep (cfg : TagCfg) (cs : List Char) (i : Nat) (stack : List (List Char))
    (ss : Option Nat) : (Nat × List (List Char) × Option Nat) ⊕ TagOut :=
  match charAt? cs i with
  | none =>
    match stack with
    | _ :: _ => .inr (.endUnclosed stack ss)
    | [] =>
      match ss with
      | some k => .inr (.endIncomplete k)
      | none => .inr .noTags
  | some c =>
    if ¬ c = '<' then .inl (i + 1, stack, ss)
    else
      match processTag cs cfg i with
      | .invalidName nameEnd => .inr (.invalidName (some (ss.getD i)) nameEnd)
      | .tag closing name selfC i4 =>
        if closing then
          match stack with
          | [] => .inr (.mismatch none name (some (ss.getD i)) i4)
          | top :: rest =>
            if ¬ top = name then .inr (.mismatch (some top) name (some (ss.getD i)) i4)
            else if rest = [] then .inr (.success (ss.getD i) i4)
            else .inl (i4, rest, some (ss.getD i))
        else if selfC then
          if stack = [] then .inr (.success (ss.getD i) i4)
          else .inl (i4, stack, some (ss.getD i))
        else .inl (i4, name :: stack, some (ss.getD i))

/-- The tag engine's `while` loop: iterate `tagStep`.  One unit of fuel is
spent per iteration; every continuing iteration advances `i` by at least
one, so fuel `length + 1` is sufficient (`tagLoop`). -/
def tagLoopF (cfg : TagCfg) (cs : List Char) : Nat → Nat → List (List Char) → Option Nat → TagOut
  | 0, _, _, _ => .noTags
  | fuel + 1, i, stack, ss =>
    match tagStep cfg cs i stack ss with
    | .inl s => tagLoopF cfg cs fuel s.1 s.2.1 s.2.2
    | .inr out => out

def tagLoop (cs : List Char) (cfg : TagCfg) : TagOut :=
  tagLoopF cfg cs (cs.length + 1) 0 [] none

/-- Map an abstract loop outcome to the engine's `Result` record, mirroring
the source's early returns and end-of-input handling. -/
def renderTag (cs : List Char) (out : TagOut) : Result :=
  match out with
  | .success start stop =>
    { status := "success", comments := "Valid tag structure found."
      data := some (.str (sliceL cs start stop)), raw := none }
  | .invalidName ss stop =>
    { status := "fail", comments := "Invalid tag name."
      data := none, raw := ss.map (fun k => .str (sliceL cs k stop)) }
  | .mismatch expected found ss stop =>
    { status := "fail"
      comments := "Mismatched closing tag: expected </" ++
        (match expected with | some t => String.mk t | none => "undefined") ++
        "> but found </" ++ String.mk found ++ ">."
      data := none, raw := ss.map (fun k => .str (sliceL cs k stop)) }
  | .endUnclosed stack ss =>
    { status := "fail"
      comments := "Unclosed tag <" ++
        (match stack with | t :: _ => String.mk t | [] => "undefined") ++ ">."
      data := none, raw := ss.map (fun k => .str (cs.drop k)) }
  | .endIncomplete ss =>
    { status := "fail", comments := "Incomplete tag structure."
      data := none, raw := some (.str (cs.drop ss)) }
  | .noTags =>
    { status := "fail", comments := "No tags found.", data := none, raw := none }

/-- `snipByTag` (src/snipByTag.js): validate the input, then scan. -/
def snipByTag (v : JsVal) (cfg : TagCfg) : Result :=
  match v with
  | .str s => if s = [] then invalidInputResult else renderTag s (tagLoop s cfg)
  | _ => invalidInputResult

/-! ### The dispatcher (src/index.js, `snipSmart`) -/

/-- The dispatcher's `options` argument: a format string, an options object
(with optional `format` and `caseSensitive` fields), or any other value. -/
inductive SnipOptions where
  | str (s : String) : SnipOptions
  | obj (format : Option String) (caseSensitive : Option Bool) : SnipOptions
  | other : SnipOptions

/-- The format selected by the dispatcher: the string itself, or the
object's `format` field with `"json"` for a missing/falsy value. -/
def selectFormat (options : SnipOptions) : String :=
  match options with
  | .str s => s
  | .obj f _ => match f with
    | some s => if s = "" then "json" else s
    | none => "json"
  | .other => "json"

/-- `snipSmart` (src/index.js): route by format name.  Note that the tag
branch calls `snipByTag(content)` with no options, i.e. the default
configuration. -/
def snipSmart (content : JsVal) (options : SnipOptions) : Result :=
  if selectFormat options = "json" then snipJson content
  else if selectFormat options = "tag" then snipByTag content {}
  else
    { status := "fail"
      comments := "Invalid format '" ++ selectFormat options ++ "'. Expected 'json' or 'tag'."
      data := none, raw := some content }

/-! ### Basic lemmas -/

theorem charAt?_lt {cs : List Char} {i : Nat} {c : Char} (h : charAt? cs i = some c) :
    i < cs.length := by
  by_contra hh
  push_neg at hh
  rw [charAt?, List.get?_len_le hh] at h
  exact absurd h (by simp)

theorem append_ne_empty (a b : String) (ha : ¬ a = "") : ¬ a ++ b = "" := by
  intro he
  apply ha
  have hd : a.data ++ b.data = ([] : List Char) := congrArg String.data he
  have h2 : a.data = [] := (List.append_eq_nil.mp hd).1
  exact congrArg String.mk h2

/-- Shape invariants for the fast path: a `some` result is always the
success record. -/
theorem fastPathResult_some {content : List Char} {start : Nat} {r : Result}
    (h : fastPathResult content start = some r) :
    r.status = "success" ∧ ¬ r.comments = "" ∧ r.raw = none ∧
      (∃ d, r.data = some (.json d)) := by
  have hc : ¬ ("JSON successfully extracted and parsed." : String) = "" := by decide
  unfold fastPathResult at h
  split at h
  · exact absurd h (by simp)
  · split at h
    · exact absurd h (by simp)
    · split at h
      · split at h
        · rw [Option.some_inj] at h
          subst h
          exact ⟨rfl, hc, rfl, _, rfl⟩
        · exact absurd h (by simp)
      · exact absurd h (by simp)

/-- Shape invariants for the balanced-candidate classifier. -/
theorem finalizeBalanced_shape (candidate : List Char) :
    ((finalizeBalanced candidate).status = "success" ∨
      (finalizeBalanced candidate).status = "check")
    ∧ ¬ (finalizeBalanced candidate).comments = ""
    ∧ ((finalizeBalanced candidate).data = none ∨ (finalizeBalanced candidate).raw = none)
    ∧ ((finalizeBalanced candidate).data = none ∨
        (finalizeBalanced candidate).status = "success") := by
  have hc2 : ¬ ("JSON successfully extracted and parsed." : String) = "" := by decide
  unfold finalizeBalanced
  cases hp : jsonParse candidate with
  | ok d => exact ⟨Or.inl rfl, hc2, Or.inr rfl, Or.inr rfl⟩
  | error e =>
    exact ⟨Or.inr rfl,
      append_ne_empty "Structurally valid JSON failed to parse: " e (by decide),
      Or.inl rfl, Or.inl rfl⟩

/-- Shape invariants for the single-repair branch. -/
theorem repairOutcome_shape (content : List Char) (start : Nat) (la : Char) :
    ((repairOutcome content start la).status = "check" ∨
      (repairOutcome content start la).status = "fail")
    ∧ ¬ (repairOutcome content start la).comments = ""
    ∧ ((repairOutcome content start la).data = none ∨
        (repairOutcome content start la).raw = none)
    ∧ ((repairOutcome content start la).data = none ∨
        (repairOutcome content start la).status = "check") := by
  have hc3 : ¬ ("One missing closing bracket auto-added. Please verify." : String) = "" := by
    decide
  unfold repairOutcome
  cases hp : jsonParse (content.drop start ++ [pairCloseD la]) with
  | ok d => exact ⟨Or.inl rfl, hc3, Or.inr rfl, Or.inr rfl⟩
  | error e =>
    exact ⟨Or.inr rfl,
      append_ne_empty "Auto-closure attempted but parsing failed: " e (by decide),
      Or.inl rfl, Or.inl rfl⟩

/-- Shape invariants for the post-scan classifier. -/
theorem jsonPostScan_shape (content : List Char) (start : Nat) :
    ((jsonPostScan content start).status = "success" ∨
      (jsonPostScan content start).status = "check" ∨
      (jsonPostScan content start).status = "fail")
    ∧ ¬ (jsonPostScan content start).comments = ""
    ∧ ((jsonPostScan content start).data = none ∨ (jsonPostScan content start).raw = none)
    ∧ ((jsonPostScan content start).data = none ∨
        (jsonPostScan content start).status = "success" ∨
        (jsonPostScan content start).status = "check") := by
  have hc1 : ¬ ("Bracket mismatch detected." : String) = "" := by decide
  have hc4 : ¬ ("Unbalanced JSON structure." : String) = "" := by decide
  unfold jsonPostScan
  cases hsc : scanLoop content start with
  | mismatch i =>
    exact ⟨Or.inr (Or.inr rfl), hc1, Or.inl rfl, Or.inl rfl⟩
  | balanced endI =>
    obtain ⟨h1, h2, h3, h4⟩ := finalizeBalanced_shape (sliceL content start (endI + 1))
    exact ⟨h1.imp id Or.inl, h2, h3, h4.imp id Or.inl⟩
  | exhausted stack =>
    match stack with
    | [] => exact ⟨Or.inr (Or.inr rfl), hc4, Or.inl rfl, Or.inl rfl⟩
    | [la] =>
      obtain ⟨h1, h2, h3, h4⟩ := repairOutcome_shape content start la
      exact ⟨Or.inr h1, h2, h3, h4.imp id Or.inr⟩
    | _ :: _ :: _ => exact ⟨Or.inr (Or.inr rfl), hc4, Or.inl rfl, Or.inl rfl⟩

/-- Shape invariants for the whole JSON engine body. -/
theorem jsonMain_shape (content : List Char) :
    ((jsonMain content).status = "success" ∨ (jsonMain content).status = "check" ∨
      (jsonMain content).status = "fail")
    ∧ ¬ (jsonMain content).comments = ""
    ∧ ((jsonMain content).data = none ∨ (jsonMain content).raw = none)
    ∧ ((jsonMain content).data = none ∨ (jsonMain content).status = "success" ∨
        (jsonMain content).status = "check") := by
  have hc : ¬ ("No JSON structure found." : String) = "" := by decide
  have hAt : ∀ start,
      ((jsonMainAt content start).status = "success" ∨
        (jsonMainAt content start).status = "check" ∨
        (jsonMainAt content start).status = "fail")
      ∧ ¬ (jsonMainAt content start).comments = ""
      ∧ ((jsonMainAt content start).data = none ∨ (jsonMainAt content start).raw = none)
      ∧ ((jsonMainAt content start).data = none ∨
          (jsonMainAt content start).status = "success" ∨
          (jsonMainAt content start).status = "check") := by
    intro start
    unfold jsonMainAt
    cases hf : fastPathResult content start with
    | some r =>
      obtain ⟨h1, h2, h3, d, h4⟩ := fastPathResult_some hf
      exact ⟨Or.inl h1, h2, Or.inr h3, Or.inr (Or.inl h1)⟩
    | none => exact jsonPostScan_shape content start
  unfold jsonMain
  cases hs : startIndex content with
  | none => exact ⟨Or.inr (Or.inr rfl), hc, Or.inl rfl, Or.inl rfl⟩
  | some start => exact hAt start

/-- Shape invariants for the tag engine's rendering of any loop outcome. -/
theorem renderTag_shape (cs : List Char) (out : TagOut) :
    ((renderTag cs out).status = "success" ∨ (renderTag cs out).status = "fail")
    ∧ ¬ (renderTag cs out).comments = ""
    ∧ ((renderTag cs out).data = none ∨ (renderTag cs out).raw = none)
    ∧ ((renderTag cs out).data = none ∨ (renderTag cs out).status = "success") := by
  have hc1 : ¬ ("Valid tag structure found." : String) = "" := by decide
  have hc2 : ¬ ("Invalid tag name." : String) = "" := by decide
  have hc3 : ¬ ("Incomplete tag structure." : String) = "" := by decide
  have hc4 : ¬ ("No tags found." : String) = "" := by decide
  cases out with
  | success start stop => exact ⟨Or.inl rfl, hc1, Or.inr rfl, Or.inr rfl⟩
  | invalidName ss stop => exact ⟨Or.inr rfl, hc2, Or.inl rfl, Or.inl rfl⟩
  | mismatch expected found ss stop =>
    exact ⟨Or.inr rfl,
      append_ne_empty "Mismatched closing tag: expected </" _ (by decide),
      Or.inl rfl, Or.inl rfl⟩
  | endUnclosed stack ss =>
    exact ⟨Or.inr rfl, append_ne_empty "Unclosed tag <" _ (by decide),
      Or.inl rfl, Or.inl rfl⟩
  | endIncomplete ss => exact ⟨Or.inr rfl, hc3, Or.inl rfl, Or.inl rfl⟩
  | noTags => exact ⟨Or.inr rfl, hc4, Or.inl rfl, Or.inl rfl⟩

/-! ### Claim theorems -/

/-- C1: for every input value (including non-string and empty inputs), the
JSON engine `snipJson` and the tag engine `snipByTag` return a `Result`
record normally — in this embedding both are total functions into `Result`,
with the only throwing operation (`JSON.parse`) consumed through a catch
(a match on `jsonParse`'s `Except`) — and every failure condition is
encoded in the returned status/comments fields: the status is always one of
the legal values and the comments field is always a non-empty diagnostic. -/
theorem c1_engines_never_throw (v : JsVal) (cfg : TagCfg) :
    ((snipJson v).status = "success" ∨ (snipJson v).status = "check" ∨
      (snipJson v).status = "fail")
    ∧ ¬ (snipJson v).comments = ""
    ∧ ((snipByTag v cfg).status = "success" ∨ (snipByTag v cfg).status = "fail")
    ∧ ¬ (snipByTag v cfg).comments = "" := by
  have hinv : ¬ ("Invalid input: content must be a non-empty string." : String) = "" := by
    decide
  have htag : ((snipByTag v cfg).status = "success" ∨ (snipByTag v cfg).status = "fail")
      ∧ ¬ (snipByTag v cfg).comments = "" := by
    cases v with
    | str s =>
      cases s with
      | nil => exact ⟨Or.inr rfl, hinv⟩
      | cons a as =>
        obtain ⟨h1, h2, _, _⟩ := renderTag_shape (a :: as) (tagLoop (a :: as) cfg)
        exact ⟨h1, h2⟩
    | json j => exact ⟨Or.inr rfl, hinv⟩
    | other => exact ⟨Or.inr rfl, hinv⟩
  have hjson : ((snipJson v).status = "success" ∨ (snipJson v).status = "check" ∨
      (snipJson v).status = "fail") ∧ ¬ (snipJson v).comments = "" := by
    cases v with
    | str s =>
      cases s with
      | nil => exact ⟨Or.inr (Or.inr rfl), hinv⟩
      | cons a as =>
        obtain ⟨h1, h2, _, _⟩ := jsonMain_shape (sanitizeContent (a :: as))
        exact ⟨h1, h2⟩
    | json j => exact ⟨Or.inr (Or.inr rfl), hinv⟩
    | other => exact ⟨Or.inr (Or.inr rfl), hinv⟩
  exact ⟨hjson.1, hjson.2, htag.1, htag.2⟩

/-- C4: for every input and configuration, the `Result` returned by either
engine and by the dispatcher never has both `data` and `raw` populated at
the same time, `data` is non-null only on success (or the JSON engine's
check outcomes), and for the tag engine `data` is non-null only on
success. -/
theorem c4_data_raw_exclusive (v : JsVal) (cfg : TagCfg) (opts : SnipOptions) :
    ((snipJson v).data = none ∨ (snipJson v).raw = none)
    ∧ ((snipJson v).data = none ∨ (snipJson v).status = "success" ∨
        (snipJson v).status = "check")
    ∧ ((snipByTag v cfg).data = none ∨ (snipByTag v cfg).raw = none)
    ∧ ((snipByTag v cfg).data = none ∨ (snipByTag v cfg).status = "success")
    ∧ ((snipSmart v opts).data = none ∨ (snipSmart v opts).raw = none) := by
  have hjson : ((snipJson v).data = none ∨ (snipJson v).raw = none)
      ∧ ((snipJson v).data = none ∨ (snipJson v).status = "success" ∨
          (snipJson v).status = "check") := by
    cases v with
    | str s =>
      cases s with
      | nil => exact ⟨Or.inl rfl, Or.inl rfl⟩
      | cons a as =>
        obtain ⟨_, _, h3, h4⟩ := jsonMain_shape (sanitizeContent (a :: as))
        exact ⟨h3, h4⟩
    | json j => exact ⟨Or.inl rfl, Or.inl rfl⟩
    | other => exact ⟨Or.inl rfl, Or.inl rfl⟩
  have htagAll : ∀ cfg2 : TagCfg, ((snipByTag v cfg2).data = none ∨ (snipByTag v cfg2).raw = none)
      ∧ ((snipByTag v cfg2).data = none ∨ (snipByTag v cfg2).status = "success") := by
    intro cfg2
    cases v with
    | str s =>
      cases s with
      | nil => exact ⟨Or.inl rfl, Or.inl rfl⟩
      | cons a as =>
        obtain ⟨_, _, h3, h4⟩ := renderTag_shape (a :: as) (tagLoop (a :: as) cfg2)
        exact ⟨h3, h4⟩
    | json j => exact ⟨Or.inl rfl, Or.inl rfl⟩
    | other => exact ⟨Or.inl rfl, Or.inl rfl⟩
  have hsmart : (snipSmart v opts).data = none ∨ (snipSmart v opts).raw = none := by
    unfold snipSmart
    by_cases h1 : selectFormat opts = "json"
    · rw [if_pos h1]
      exact hjson.1
    · rw [if_neg h1]
      by_cases h2 : selectFormat opts = "tag"
      · rw [if_pos h2]
        exact (htagAll {}).1
      · rw [if_neg h2]
        exact Or.inl rfl
  exact ⟨hjson.1, hjson.2, (htagAll cfg).1, (htagAll cfg).2, hsmart⟩

/-- The structural scan is insensitive to text appended after the point
where it stops: if the stack first returns to empty at absolute index `e`,
the result is the same on any extension, and `e` is bounded by the scanned
region. -/
theorem scanLoopAux_balanced_facts (l : List Char) :
    ∀ (i : Nat) (st : List Char) (e : Nat), scanLoopAux l i st = .balanced e →
      i ≤ e ∧ e < i + l.length ∧
        ∀ sfx, scanLoopAux (l ++ sfx) i st = .balanced e := by
  induction l with
  | nil =>
    intro i st e h
    exact absurd h (by simp [scanLoopAux])
  | cons c rest ih =>
    intro i st e h
    simp only [scanLoopAux] at h
    by_cases hop : isOpeningBrace c = true
    · rw [if_pos hop] at h
      obtain ⟨h1, h2, h3⟩ := ih (i + 1) (c :: st) e h
      refine ⟨by omega, by simp only [List.length_cons]; omega, ?_⟩
      intro sfx
      rw [List.cons_append]
      simp only [scanLoopAux, if_pos hop]
      exact h3 sfx
    · rw [if_neg hop] at h
      by_cases hcl : isClosingBrace c = true
      · rw [if_pos hcl] at h
        cases st with
        | nil => exact absurd h (by simp)
        | cons last st' =>
          simp only [] at h
          by_cases hp : ¬ pairs? last = some c
          · rw [if_pos hp] at h
            exact absurd h (by simp)
          · rw [if_neg hp] at h
            by_cases hst : st' = []
            · rw [if_pos hst] at h
              have he : i = e := by cases h; rfl
              subst he
              refine ⟨le_refl _, by simp only [List.length_cons]; omega, ?_⟩
              intro sfx
              rw [List.cons_append]
              simp only [scanLoopAux, if_neg hop, if_pos hcl, if_neg hp, if_pos hst]
            · rw [if_neg hst] at h
              obtain ⟨h1, h2, h3⟩ := ih (i + 1) st' e h
              refine ⟨by omega, by simp only [List.length_cons]; omega, ?_⟩
              intro sfx
              rw [List.cons_append]
              simp only [scanLoopAux, if_neg hop, if_pos hcl, if_neg hp, if_neg hst]
              exact h3 sfx
      · rw [if_neg hcl] at h
        obtain ⟨h1, h2, h3⟩ := ih (i + 1) st e h
        refine ⟨by omega, by simp only [List.length_cons]; omega, ?_⟩
        intro sfx
        rw [List.cons_append]
        simp only [scanLoopAux, if_neg hop, if_neg hcl]
        exact h3 sfx

/-- C2: in the JSON engine's structural scan, whenever the bracket stack
first returns to empty at index `e`, scanning stops there and `e` is taken
as the end of the candidate span (the post-scan classifier decodes exactly
the slice from the start through `e`); text after that index never
influences the result — appending any suffix leaves both the scan outcome
and the classified result unchanged (first balanced top-level span wins). -/
theorem c2_first_balanced_span_wins (content : List Char) (start e : Nat)
    (h : scanLoop content start = .balanced e) :
    (∀ sfx, scanLoop (content ++ sfx) start = .balanced e)
    ∧ jsonPostScan content start = finalizeBalanced (sliceL content start (e + 1))
    ∧ ∀ sfx, jsonPostScan (content ++ sfx) start = jsonPostScan content start := by
  unfold scanLoop at h
  obtain ⟨h1, h2, h3⟩ := scanLoopAux_balanced_facts (content.drop start) start [] e h
  have hlen : (content.drop start).length = content.length - start := by
    simp
  have hstart : start < content.length := by
    rcases Nat.lt_or_ge start content.length with hc | hc
    · exact hc
    · exfalso
      rw [List.drop_eq_nil_of_le hc] at h
      exact absurd h (by simp [scanLoopAux])
  have he : e < content.length := by omega
  have happ : ∀ sfx, scanLoop (content ++ sfx) start = .balanced e := by
    intro sfx
    unfold scanLoop
    rw [List.drop_append_of_le_length (le_of_lt hstart)]
    exact h3 sfx
  have hslice : ∀ sfx, sliceL (content ++ sfx) start (e + 1) = sliceL content start (e + 1) := by
    intro sfx
    unfold sliceL
    rw [List.drop_append_of_le_length (le_of_lt hstart)]
    rw [List.take_append_of_le_length (by simp; omega)]
  have hpost : jsonPostScan content start = finalizeBalanced (sliceL content start (e + 1)) := by
    unfold jsonPostScan
    rw [show scanLoop content start = .balanced e from h]
  refine ⟨happ, hpost, ?_⟩
  intro sfx
  have hpost2 : jsonPostScan (content ++ sfx) start =
      finalizeBalanced (sliceL (content ++ sfx) start (e + 1)) := by
    unfold jsonPostScan
    rw [happ sfx]
  rw [hpost2, hslice sfx, hpost]

/-- Witness for C2 at a concrete input: `[1]x` scans to a balanced span
ending at index 2, and stays there when `[` is appended. -/
theorem c2_witness :
    scanLoop ['[', '1', ']', 'x'] 0 = ScanOut.balanced 2
    ∧ scanLoop (['[', '1', ']', 'x'] ++ ['[']) 0 = ScanOut.balanced 2 :=
  ⟨by decide, (c2_first_balanced_span_wins ['[', '1', ']', 'x'] 0 2 (by decide)).1 ['[']⟩

/-- C3: for every input whose structural scan exhausts the text with the
stack non-empty: with exactly one delimiter left open, the engine appends
its matching closer to the slice from start to end-of-text and decodes the
repaired candidate — on decode success it returns status check with `data`
set to the decoded value and `raw` absent, on decode failure it returns
fail with `data` absent and `raw` set to the repaired candidate; with more
than one delimiter open, no repair is attempted and it returns fail with
comments "Unbalanced JSON structure." and `raw` set to the slice from
start to end-of-text. -/
theorem c3_unclosed_structures (s : List Char) (start : Nat) (la : Char)
    (stackRem : List Char)
    (hne : ¬ s = [])
    (hstart : startIndex (sanitizeContent s) = some start)
    (hfp : fastPathResult (sanitizeContent s) start = none)
    (hscan : scanLoop (sanitizeContent s) start = .exhausted stackRem) :
    (stackRem = [la] →
      (∀ d, jsonParse ((sanitizeContent s).drop start ++ [pairCloseD la]) = .ok d →
        snipJson (.str s) =
          { status := "check"
            comments := "One missing closing bracket auto-added. Please verify."
            data := some (.json d), raw := none })
      ∧ (∀ e, jsonParse ((sanitizeContent s).drop start ++ [pairCloseD la]) = .error e →
        snipJson (.str s) =
          { status := "fail"
            comments := "Auto-closure attempted but parsing failed: " ++ e
            data := none
            raw := some (.str ((sanitizeContent s).drop start ++ [pairCloseD la])) }))
    ∧ (1 < stackRem.length →
        snipJson (.str s) =
          { status := "fail", comments := "Unbalanced JSON structure."
            data := none, raw := some (.str ((sanitizeContent s).drop start)) }) := by
  have h0 : snipJson (.str s) = jsonPostScan (sanitizeContent s) start := by
    show (if s = [] then invalidInputResult else jsonMain (sanitizeContent s)) = _
    rw [if_neg hne]
    unfold jsonMain
    rw [hstart]
    show jsonMainAt (sanitizeContent s) start = _
    unfold jsonMainAt
    rw [hfp]
  constructor
  · intro hrem
    subst hrem
    have h1 : snipJson (.str s) = repairOutcome (sanitizeContent s) start la := by
      rw [h0]
      unfold jsonPostScan
      rw [hscan]
    constructor
    · intro d hd
      rw [h1]
      unfold repairOutcome
      rw [hd]
    · intro e hepar
      rw [h1]
      unfold repairOutcome
      rw [hepar]
  · intro hlen
    rw [h0]
    unfold jsonPostScan
    rw [hscan]
    match stackRem, hlen with
    | a :: b :: rest, _ => rfl

/-- Witness for C3 at the concrete input `{ "a": 30 ` (one unclosed brace,
repair parses): the engine returns check with the decoded object and no
raw. -/
theorem c3_witness :
    snipJson (.str ['{', ' ', '"', 'a', '"', ':', ' ', '3', '0', ' ']) =
      { status := "check"
        comments := "One missing closing bracket auto-added. Please verify."
        data := some (.json (.obj [(['a'], .num false ['3', '0'] [] [])]))
        raw := none } :=
  ((c3_unclosed_structures ['{', ' ', '"', 'a', '"', ':', ' ', '3', '0', ' ']
    0 '{' ['{'] (by decide) rfl rfl rfl).1 rfl).1 _ rfl

/-- C5: for every input whose structural scan finds a balanced candidate
span but whose candidate slice fails to decode, the engine returns status
check with `data` absent, comments including the decode error, and `raw`
set to the candidate slice — the documented exception where a check result
carries no data. -/
theorem c5_balanced_decode_failure (s : List Char) (start e : Nat) (err : String)
    (hne : ¬ s = [])
    (hstart : startIndex (sanitizeContent s) = some start)
    (hfp : fastPathResult (sanitizeContent s) start = none)
    (hscan : scanLoop (sanitizeContent s) start = .balanced e)
    (hparse : jsonParse (sliceL (sanitizeContent s) start (e + 1)) = .error err) :
    snipJson (.str s) =
      { status := "check"
        comments := "Structurally valid JSON failed to parse: " ++ err
        data := none
        raw := some (.str (sliceL (sanitizeContent s) start (e + 1))) } := by
  have h0 : snipJson (.str s) = jsonPostScan (sanitizeContent s) start := by
    show (if s = [] then invalidInputResult else jsonMain (sanitizeContent s)) = _
    rw [if_neg hne]
    unfold jsonMain
    rw [hstart]
    show jsonMainAt (sanitizeContent s) start = _
    unfold jsonMainAt
    rw [hfp]
  have h1 : jsonPostScan (sanitizeContent s) start =
      finalizeBalanced (sliceL (sanitizeContent s) start (e + 1)) := by
    unfold jsonPostScan
    rw [hscan]
  rw [h0, h1]
  unfold finalizeBalanced
  rw [hparse]

/-- Witness for C5 at the concrete input `[1,]`: bracket-balanced but the
decoder rejects the trailing separator, so the result is a data-less check
carrying the candidate slice in raw. -/
theorem c5_witness :
    snipJson (.str ['[', '1', ',', ']']) =
      { status := "check"
        comments := "Structurally valid JSON failed to parse: " ++ "Unexpected token in JSON"
        data := none
        raw := some (.str ['[', '1', ',', ']']) } :=
  c5_balanced_decode_failure ['[', '1', ',', ']'] 0 3 "Unexpected token in JSON"
    (by decide) rfl rfl rfl rfl

/-- C6 counterexample: the JSON engine does *not* operate on its input
exactly as given.  On the concrete input `["a\nb"]` (with a literal
backslash-n escape inside the JSON string), `sanitizeContent` rewrites the
escape to a real newline, so the engine (status check) disagrees with the
same pipeline run on the unmodified input (status success): the claim
`snipJson (.str s) = jsonMain s` is false at this input. -/
theorem c6_counterexample :
    ¬ sanitizeContent ['[', '"', 'a', '\\', 'n', 'b', '"', ']'] =
        ['[', '"', 'a', '\\', 'n', 'b', '"', ']']
    ∧ (snipJson (.str ['[', '"', 'a', '\\', 'n', 'b', '"', ']'])).status = "check"
    ∧ (jsonMain ['[', '"', 'a', '\\', 'n', 'b', '"', ']']).status = "success"
    ∧ ¬ snipJson (.str ['[', '"', 'a', '\\', 'n', 'b', '"', ']']) =
        jsonMain ['[', '"', 'a', '\\', 'n', 'b', '"', ']'] :=
  ⟨by decide, rfl, rfl,
    fun h => absurd (congrArg Result.status h) (by decide)⟩

/-- C6 amended: the JSON engine performs the normalization itself — for
every non-empty string input it first applies `sanitizeContent` (stripping
concatenation artifacts, markdown fences, outer quotes and backticks, and
rewriting escaped newline sequences) and then runs the engine body on the
sanitized text, not on the input as given. -/
theorem c6_amended_engine_sanitizes (s : List Char) (hne : ¬ s = []) :
    snipJson (.str s) = jsonMain (sanitizeContent s) := by
  show (if s = [] then invalidInputResult else jsonMain (sanitizeContent s)) = _
  rw [if_neg hne]

/-- Witness for the amended C6 at a concrete input. -/
theorem c6_amended_witness :
    snipJson (.str ['[', '1', ']']) = jsonMain (sanitizeContent ['[', '1', ']']) :=
  c6_amended_engine_sanitizes ['[', '1', ']'] (by decide)

/-- C10: the dispatcher never forwards configuration to the tag engine:
with format `"tag"` (however the `caseSensitive` option is set),
`snipSmart` equals `snipByTag` under the default configuration, so
tag-name comparison through the dispatcher remains case-insensitive — even
though the engine itself, called directly with `caseSensitive := true`,
would reject the same mixed-case input. -/
theorem c10_dispatcher_drops_tag_options (v : JsVal) (cso : Option Bool) :
    snipSmart v (.obj (some "tag") cso) = snipByTag v { caseSensitive := false }
    ∧ snipSmart v (.str "tag") = snipByTag v { caseSensitive := false }
    ∧ (snipSmart (.str ['<', 'A', '>', '<', '/', 'a', '>'])
        (.obj (some "tag") (some true))).status = "success"
    ∧ (snipByTag (.str ['<', 'A', '>', '<', '/', 'a', '>'])
        { caseSensitive := true }).status = "fail" := by
  refine ⟨rfl, rfl, by decide, by decide⟩

/-! ### Tag-engine lemmas: index bounds for one processed tag -/

theorem skipToTagEndAux_ge (l : List Char) : ∀ n, n ≤ (skipToTagEndAux l n).1 := by
  induction l with
  | nil => intro n; exact le_refl n
  | cons c rest ih =>
    intro n
    rw [skipToTagEndAux]
    by_cases h1 : c = '>'
    · rw [if_pos h1]
    · rw [if_neg h1]
      by_cases h2 : c = '/' ∧ charAt? rest 0 = some '>'
      · rw [if_pos h2]
        exact Nat.le_add_right n 2
      · rw [if_neg h2]
        exact le_trans (Nat.le_succ n) (ih (n + 1))

theorem skipToTagEndAux_le (l : List Char) : ∀ n, (skipToTagEndAux l n).1 ≤ n + l.length := by
  induction l with
  | nil => intro n; exact Nat.le_add_right n 0
  | cons c rest ih =>
    intro n
    rw [skipToTagEndAux]
    by_cases h1 : c = '>'
    · rw [if_pos h1]
      exact Nat.le_add_right n _
    · rw [if_neg h1]
      by_cases h2 : c = '/' ∧ charAt? rest 0 = some '>'
      · rw [if_pos h2]
        have : 0 < rest.length := charAt?_lt h2.2
        simp only [List.length_cons]
        omega
      · rw [if_neg h2]
        have := ih (n + 1)
        simp only [List.length_cons]
        omega

theorem skipToTagEnd_ge (cs : List Char) (i : Nat) : i ≤ (skipToTagEnd cs i).1 :=
  Nat.le_add_right i _

theorem skipToTagEnd_le (cs : List Char) (i : Nat) (h : i ≤ cs.length) :
    (skipToTagEnd cs i).1 ≤ cs.length := by
  have h1 := skipToTagEndAux_le (cs.drop i) 0
  have h2 : (cs.drop i).length = cs.length - i := List.length_drop i cs
  show i + (skipToTagEndAux (cs.drop i) 0).1 ≤ cs.length
  omega

theorem scanNameEnd_ge (cs : List Char) (i : Nat) : i ≤ scanNameEnd cs i :=
  Nat.le_add_right i _

theorem scanNameEnd_le (cs : List Char) (i : Nat) (h : i ≤ cs.length) :
    scanNameEnd cs i ≤ cs.length := by
  have h1 : ((cs.drop i).takeWhile isTagNameChar).length ≤ (cs.drop i).length :=
    ((cs.drop i).takeWhile_sublist isTagNameChar).length_le
  have h2 : (cs.drop i).length = cs.length - i := List.length_drop i cs
  show i + ((cs.drop i).takeWhile isTagNameChar).length ≤ cs.length
  omega

theorem tagNext_ge (cs : List Char) (i2 : Nat) : i2 ≤ tagNext cs i2 := by
  have h1 := scanNameEnd_ge cs i2
  have h2 := skipToTagEnd_ge cs (scanNameEnd cs i2)
  unfold tagNext
  by_cases hc : charAt? cs (skipToTagEnd cs (scanNameEnd cs i2)).1 = some '>'
  · rw [if_pos hc]
    omega
  · rw [if_neg hc]
    omega

theorem tagNext_le (cs : List Char) (i2 : Nat) (h : i2 ≤ cs.length) :
    tagNext cs i2 ≤ cs.length := by
  have h1 := scanNameEnd_le cs i2 h
  have h2 := skipToTagEnd_le cs (scanNameEnd cs i2) h1
  unfold tagNext
  by_cases hc : charAt? cs (skipToTagEnd cs (scanNameEnd cs i2)).1 = some '>'
  · rw [if_pos hc]
    have := charAt?_lt hc
    omega
  · rw [if_neg hc]
    exact h2

theorem tagAfterName_bounds (cs : List Char) (cfg : TagCfg) (closing : Bool) (i2 : Nat) :
    (∀ ne, tagAfterName cs cfg closing i2 = .invalidName ne →
      i2 ≤ ne ∧ (i2 ≤ cs.length → ne ≤ cs.length))
    ∧ (∀ cl name sc i4, tagAfterName cs cfg closing i2 = .tag cl name sc i4 →
      i2 ≤ i4 ∧ (i2 ≤ cs.length → i4 ≤ cs.length)) := by
  unfold tagAfterName
  by_cases hempty : jsTrimL (sliceL cs i2 (scanNameEnd cs i2)) = []
  · rw [if_pos hempty]
    constructor
    · intro ne hne
      have : scanNameEnd cs i2 = ne := by cases hne; rfl
      subst this
      exact ⟨scanNameEnd_ge cs i2, fun h => scanNameEnd_le cs i2 h⟩
    · intro cl name sc i4 htag
      exact absurd htag (by simp)
  · rw [if_neg hempty]
    constructor
    · intro ne hne
      exact absurd hne (by simp)
    · intro cl name sc i4 htag
      have : tagNext cs i2 = i4 := by cases htag; rfl
      subst this
      exact ⟨tagNext_ge cs i2, fun h => tagNext_le cs i2 h⟩

theorem processTag_bounds (cs : List Char) (cfg : TagCfg) (i : Nat) :
    (∀ ne, processTag cs cfg i = .invalidName ne →
      i + 1 ≤ ne ∧ (i < cs.length → ne ≤ cs.length))
    ∧ (∀ cl name sc i4, processTag cs cfg i = .tag cl name sc i4 →
      i + 1 ≤ i4 ∧ (i < cs.length → i4 ≤ cs.length)) := by
  unfold processTag
  by_cases hsl : charAt? cs (i + 1) = some '/'
  · rw [if_pos hsl]
    have hlen : i + 2 ≤ cs.length := charAt?_lt hsl
    obtain ⟨hA, hB⟩ := tagAfterName_bounds cs cfg true (i + 2)
    constructor
    · intro ne hne
      obtain ⟨b1, b2⟩ := hA ne hne
      exact ⟨by omega, fun _ => b2 hlen⟩
    · intro cl name sc i4 htag
      obtain ⟨b1, b2⟩ := hB cl name sc i4 htag
      exact ⟨by omega, fun _ => b2 hlen⟩
  · rw [if_neg hsl]
    obtain ⟨hA, hB⟩ := tagAfterName_bounds cs cfg false (i + 1)
    constructor
    · intro ne hne
      obtain ⟨b1, b2⟩ := hA ne hne
      exact ⟨b1, fun h => b2 h⟩
    · intro cl name sc i4 htag
      obtain ⟨b1, b2⟩ := hB cl name sc i4 htag
      exact ⟨b1, fun h => b2 h⟩

/-! ### Tag-engine lemmas: one equation per loop-step branch -/

theorem tagStep_eoi_unclosed (cfg : TagCfg) (cs : List Char) (i : Nat) (t : List Char)
    (rest : List (List Char)) (ss : Option Nat) (hc : charAt? cs i = none) :
    tagStep cfg cs i (t :: rest) ss = .inr (.endUnclosed (t :: rest) ss) := by
  simp [tagStep, hc]

theorem tagStep_eoi_incomplete (cfg : TagCfg) (cs : List Char) (i k : Nat)
    (hc : charAt? cs i = none) :
    tagStep cfg cs i [] (some k) = .inr (.endIncomplete k) := by
  simp [tagStep, hc]

theorem tagStep_eoi_notags (cfg : TagCfg) (cs : List Char) (i : Nat)
    (hc : charAt? cs i = none) :
    tagStep cfg cs i [] none = .inr .noTags := by
  simp [tagStep, hc]

theorem tagStep_skip (cfg : TagCfg) (cs : List Char) (i : Nat) (stack : List (List Char))
    (ss : Option Nat) (c : Char) (hc : charAt? cs i = some c) (hne : ¬ c = '<') :
    tagStep cfg cs i stack ss = .inl (i + 1, stack, ss) := by
  simp [tagStep, hc, hne]

theorem tagStep_invalid (cfg : TagCfg) (cs : List Char) (i : Nat) (stack : List (List Char))
    (ss : Option Nat) (ne : Nat) (hc : charAt? cs i = some '<')
    (hp : processTag cs cfg i = .invalidName ne) :
    tagStep cfg cs i stack ss = .inr (.invalidName (some (ss.getD i)) ne) := by
  simp [tagStep, hc, hp]

theorem tagStep_close_empty (cfg : TagCfg) (cs : List Char) (i : Nat) (ss : Option Nat)
    (name : List Char) (selfC : Bool) (i4 : Nat) (hc : charAt? cs i = some '<')
    (hp : processTag cs cfg i = .tag true name selfC i4) :
    tagStep cfg cs i [] ss = .inr (.mismatch none name (some (ss.getD i)) i4) := by
  simp [tagStep, hc, hp]

theorem tagStep_close_mismatch (cfg : TagCfg) (cs : List Char) (i : Nat) (top : List Char)
    (rest : List (List Char)) (ss : Option Nat) (name : List Char) (selfC : Bool) (i4 : Nat)
    (hc : charAt? cs i = some '<') (hp : processTag cs cfg i = .tag true name selfC i4)
    (hne : ¬ top = name) :
    tagStep cfg cs i (top :: rest) ss =
      .inr (.mismatch (some top) name (some (ss.getD i)) i4) := by
  simp [tagStep, hc, hp, hne]

theorem tagStep_close_success (cfg : TagCfg) (cs : List Char) (i : Nat) (ss : Option Nat)
    (name : List Char) (selfC : Bool) (i4 : Nat) (hc : charAt? cs i = some '<')
    (hp : processTag cs cfg i = .tag true name selfC i4) :
    tagStep cfg cs i [name] ss = .inr (.success (ss.getD i) i4) := by
  simp [tagStep, hc, hp]

theorem tagStep_close_continue (cfg : TagCfg) (cs : List Char) (i : Nat)
    (rest : List (List Char)) (ss : Option Nat) (name : List Char) (selfC : Bool) (i4 : Nat)
    (hc : charAt? cs i = some '<') (hp : processTag cs cfg i = .tag true name selfC i4)
    (hrest : ¬ rest = []) :
    tagStep cfg cs i (name :: rest) ss = .inl (i4, rest, some (ss.getD i)) := by
  simp [tagStep, hc, hp, hrest]

theorem tagStep_self_success (cfg : TagCfg) (cs : List Char) (i : Nat) (ss : Option Nat)
    (name : List Char) (i4 : Nat) (hc : charAt? cs i = some '<')
    (hp : processTag cs cfg i = .tag false name true i4) :
    tagStep cfg cs i [] ss = .inr (.success (ss.getD i) i4) := by
  simp [tagStep, hc, hp]

theorem tagStep_self_continue (cfg : TagCfg) (cs : List Char) (i : Nat)
    (stack : List (List Char)) (ss : Option Nat) (name : List Char) (i4 : Nat)
    (hc : charAt? cs i = some '<') (hp : processTag cs cfg i = .tag false name true i4)
    (hst : ¬ stack = []) :
    tagStep cfg cs i stack ss = .inl (i4, stack, some (ss.getD i)) := by
  simp [tagStep, hc, hp, hst]

theorem tagStep_open (cfg : TagCfg) (cs : List Char) (i : Nat) (stack : List (List Char))
    (ss : Option Nat) (name : List Char) (i4 : Nat) (hc : charAt? cs i = some '<')
    (hp : processTag cs cfg i = .tag false name false i4) :
    tagStep cfg cs i stack ss = .inl (i4, name :: stack, some (ss.getD i)) := by
  simp [tagStep, hc, hp]

theorem tagLoopF_inl (cfg : TagCfg) (cs : List Char) (fuel i : Nat)
    (stack : List (List Char)) (ss : Option Nat) (i2 : Nat) (st2 : List (List Char))
    (ss2 : Option Nat) (h : tagStep cfg cs i stack ss = .inl (i2, st2, ss2)) :
    tagLoopF cfg cs (fuel + 1) i stack ss = tagLoopF cfg cs fuel i2 st2 ss2 := by
  rw [tagLoopF, h]

theorem tagLoopF_inr (cfg : TagCfg) (cs : List Char) (fuel i : Nat)
    (stack : List (List Char)) (ss : Option Nat) (out : TagOut)
    (h : tagStep cfg cs i stack ss = .inr out) :
    tagLoopF cfg cs (fuel + 1) i stack ss = out := by
  rw [tagLoopF, h]

/-- Monotonicity of a successful run: the balanced span ends strictly after
the position the loop was entered at, and within the text. -/
theorem tagLoopF_success_mono (cfg : TagCfg) (cs : List Char) :
    ∀ (fuel i : Nat) (stack : List (List Char)) (ss : Option Nat) (a b : Nat),
      tagLoopF cfg cs fuel i stack ss = .success a b → i < b ∧ b ≤ cs.length := by
  intro fuel
  induction fuel with
  | zero =>
    intro i stack ss a b h
    exact absurd h (by simp [tagLoopF])
  | succ fuel ih =>
    intro i stack ss a b h
    cases hc : charAt? cs i with
    | none =>
      cases stack with
      | cons t rest =>
        rw [tagLoopF_inr cfg cs fuel i (t :: rest) ss _
          (tagStep_eoi_unclosed cfg cs i t rest ss hc)] at h
        exact absurd h (by simp)
      | nil =>
        cases ss with
        | some k =>
          rw [tagLoopF_inr cfg cs fuel i [] (some k) _
            (tagStep_eoi_incomplete cfg cs i k hc)] at h
          exact absurd h (by simp)
        | none =>
          rw [tagLoopF_inr cfg cs fuel i [] none _ (tagStep_eoi_notags cfg cs i hc)] at h
          exact absurd h (by simp)
    | some c =>
      by_cases hch : c = '<'
      · subst hch
        cases hp : processTag cs cfg i with
        | invalidName ne =>
          rw [tagLoopF_inr cfg cs fuel i stack ss _
            (tagStep_invalid cfg cs i stack ss ne hc hp)] at h
          exact absurd h (by simp)
        | tag closing name selfC i4 =>
          have hi4 : i + 1 ≤ i4 ∧ (i < cs.length → i4 ≤ cs.length) :=
            (processTag_bounds cs cfg i).2 closing name selfC i4 hp
          have hilen : i < cs.length := charAt?_lt hc
          cases closing with
          | true =>
            cases stack with
            | nil =>
              rw [tagLoopF_inr cfg cs fuel i [] ss _
                (tagStep_close_empty cfg cs i ss name selfC i4 hc hp)] at h
              exact absurd h (by simp)
            | cons top rest =>
              by_cases htop : top = name
              · subst htop
                by_cases hrest : rest = []
                · subst hrest
                  rw [tagLoopF_inr cfg cs fuel i [top] ss _
                    (tagStep_close_success cfg cs i ss top selfC i4 hc hp)] at h
                  have hb : i4 = b := by cases h; rfl
                  subst hb
                  exact ⟨by omega, hi4.2 hilen⟩
                · rw [tagLoopF_inl cfg cs fuel i (top :: rest) ss i4 rest (some (ss.getD i))
                    (tagStep_close_continue cfg cs i rest ss top selfC i4 hc hp hrest)] at h
                  obtain ⟨q1, q2⟩ := ih i4 rest (some (ss.getD i)) a b h
                  exact ⟨by omega, q2⟩
              · rw [tagLoopF_inr cfg cs fuel i (top :: rest) ss _
                  (tagStep_close_mismatch cfg cs i top rest ss name selfC i4 hc hp htop)] at h
                exact absurd h (by simp)
          | false =>
            cases selfC with
            | true =>
              by_cases hst : stack = []
              · subst hst
                rw [tagLoopF_inr cfg cs fuel i [] ss _
                  (tagStep_self_success cfg cs i ss name i4 hc hp)] at h
                have hb : i4 = b := by cases h; rfl
                subst hb
                exact ⟨by omega, hi4.2 hilen⟩
              · rw [tagLoopF_inl cfg cs fuel i stack ss i4 stack (some (ss.getD i))
                  (tagStep_self_continue cfg cs i stack ss name i4 hc hp hst)] at h
                obtain ⟨q1, q2⟩ := ih i4 stack (some (ss.getD i)) a b h
                exact ⟨by omega, q2⟩
            | false =>
              rw [tagLoopF_inl cfg cs fuel i stack ss i4 (name :: stack) (some (ss.getD i))
                (tagStep_open cfg cs i stack ss name i4 hc hp)] at h
              obtain ⟨q1, q2⟩ := ih i4 (name :: stack) (some (ss.getD i)) a b h
              exact ⟨by omega, q2⟩
      · rw [tagLoopF_inl cfg cs fuel i stack ss (i + 1) stack ss
          (tagStep_skip cfg cs i stack ss c hc hch)] at h
        obtain ⟨q1, q2⟩ := ih (i + 1) stack ss a b h
        exact ⟨by omega, q2⟩

/-- The tag loop's reachability invariant.  From any state in which the
recorded snippet start (when set) is the index of the first `<`, lies at or
before the read index, and implies a non-empty stack — in particular from
the initial state — the loop (1) never ends in the `endIncomplete` state,
(2) ends `endUnclosed` only with a non-empty stack and the snippet start
recorded at the first `<`, and (3) ends `success a b` only with `a` the
first `<` and `a < b`. -/
theorem tagLoopF_inv (cfg : TagCfg) (cs : List Char) :
    ∀ (fuel i : Nat) (stack : List (List Char)) (ss : Option Nat),
      (∀ k, ss = some k → ¬ stack = [] ∧ charAt? cs k = some '<' ∧
          (∀ j, j < k → ¬ charAt? cs j = some '<') ∧ k ≤ i) →
      (ss = none → stack = [] ∧ ∀ j, j < i → ¬ charAt? cs j = some '<') →
      (∀ k, ¬ tagLoopF cfg cs fuel i stack ss = .endIncomplete k)
      ∧ (∀ st ssv, tagLoopF cfg cs fuel i stack ss = .endUnclosed st ssv →
          ¬ st = [] ∧ ∃ k, ssv = some k ∧ charAt? cs k = some '<' ∧
            ∀ j, j < k → ¬ charAt? cs j = some '<')
      ∧ (∀ a b, tagLoopF cfg cs fuel i stack ss = .success a b →
          charAt? cs a = some '<' ∧ (∀ j, j < a → ¬ charAt? cs j = some '<') ∧ a < b) := by
  intro fuel
  induction fuel with
  | zero =>
    intro i stack ss _ _
    refine ⟨?_, ?_, ?_⟩
    · intro k h
      exact absurd h (by simp [tagLoopF])
    · intro st ssv h
      exact absurd h (by simp [tagLoopF])
    · intro a b h
      exact absurd h (by simp [tagLoopF])
  | succ fuel ih =>
    intro i stack ss hss hnone
    cases hc : charAt? cs i with
    | none =>
      cases stack with
      | cons t rest =>
        have heq := tagLoopF_inr cfg cs fuel i (t :: rest) ss _
          (tagStep_eoi_unclosed cfg cs i t rest ss hc)
        refine ⟨?_, ?_, ?_⟩
        · intro k h
          rw [heq] at h
          exact absurd h (by simp)
        · intro st ssv h
          rw [heq] at h
          injection h with hst hssv
          subst hst
          subst hssv
          refine ⟨by simp, ?_⟩
          cases ss with
          | none => exact absurd (hnone rfl).1 (by simp)
          | some k =>
            obtain ⟨_, hk1, hk2, _⟩ := hss k rfl
            exact ⟨k, rfl, hk1, hk2⟩
        · intro a b h
          rw [heq] at h
          exact absurd h (by simp)
      | nil =>
        cases ss with
        | some k => exact absurd rfl (hss k rfl).1
        | none =>
          have heq := tagLoopF_inr cfg cs fuel i [] none _ (tagStep_eoi_notags cfg cs i hc)
          refine ⟨?_, ?_, ?_⟩
          · intro k h
            rw [heq] at h
            exact absurd h (by simp)
          · intro st ssv h
            rw [heq] at h
            exact absurd h (by simp)
          · intro a b h
            rw [heq] at h
            exact absurd h (by simp)
    | some c =>
      by_cases hch : c = '<'
      · subst hch
        have hssv : charAt? cs (ss.getD i) = some '<' ∧
            (∀ j, j < ss.getD i → ¬ charAt? cs j = some '<') ∧ ss.getD i ≤ i := by
          cases ss with
          | none => exact ⟨hc, (hnone rfl).2, le_refl i⟩
          | some k =>
            obtain ⟨_, hk1, hk2, hk3⟩ := hss k rfl
            exact ⟨hk1, hk2, hk3⟩
        cases hp : processTag cs cfg i with
        | invalidName ne =>
          have heq := tagLoopF_inr cfg cs fuel i stack ss _
            (tagStep_invalid cfg cs i stack ss ne hc hp)
          refine ⟨?_, ?_, ?_⟩
          · intro k h
            rw [heq] at h
            exact absurd h (by simp)
          · intro st ssv h
            rw [heq] at h
            exact absurd h (by simp)
          · intro a b h
            rw [heq] at h
            exact absurd h (by simp)
        | tag closing name selfC i4 =>
          have hi4 : i + 1 ≤ i4 :=
            ((processTag_bounds cs cfg i).2 closing name selfC i4 hp).1
          cases closing with
          | true =>
            cases stack with
            | nil =>
              have heq := tagLoopF_inr cfg cs fuel i [] ss _
                (tagStep_close_empty cfg cs i ss name selfC i4 hc hp)
              refine ⟨?_, ?_, ?_⟩
              · intro k h
                rw [heq] at h
                exact absurd h (by simp)
              · intro st ssv h
                rw [heq] at h
                exact absurd h (by simp)
              · intro a b h
                rw [heq] at h
                exact absurd h (by simp)
            | cons top rest =>
              by_cases htop : top = name
              · subst htop
                by_cases hrest : rest = []
                · subst hrest
                  have heq := tagLoopF_inr cfg cs fuel i [top] ss _
                    (tagStep_close_success cfg cs i ss top selfC i4 hc hp)
                  refine ⟨?_, ?_, ?_⟩
                  · intro k h
                    rw [heq] at h
                    exact absurd h (by simp)
                  · intro st ssv h
                    rw [heq] at h
                    exact absurd h (by simp)
                  · intro a b h
                    rw [heq] at h
                    injection h with ha hb
                    subst ha
                    subst hb
                    exact ⟨hssv.1, hssv.2.1, by omega⟩
                · have heq := tagLoopF_inl cfg cs fuel i (top :: rest) ss i4 rest
                    (some (ss.getD i))
                    (tagStep_close_continue cfg cs i rest ss top selfC i4 hc hp hrest)
                  obtain ⟨q1, q2, q3⟩ := ih i4 rest (some (ss.getD i))
                    (by
                      intro k hk
                      injection hk with hk
                      subst hk
                      exact ⟨hrest, hssv.1, hssv.2.1, by omega⟩)
                    (by intro hx; exact absurd hx (by simp))
                  refine ⟨?_, ?_, ?_⟩
                  · intro k h
                    rw [heq] at h
                    exact q1 k h
                  · intro st ssv h
                    rw [heq] at h
                    exact q2 st ssv h
                  · intro a b h
                    rw [heq] at h
                    exact q3 a b h
              · have heq := tagLoopF_inr cfg cs fuel i (top :: rest) ss _
                  (tagStep_close_mismatch cfg cs i top rest ss name selfC i4 hc hp htop)
                refine ⟨?_, ?_, ?_⟩
                · intro k h
                  rw [heq] at h
                  exact absurd h (by simp)
                · intro st ssv h
                  rw [heq] at h
                  exact absurd h (by simp)
                · intro a b h
                  rw [heq] at h
                  exact absurd h (by simp)
          | false =>
            cases selfC with
            | true =>
              by_cases hst : stack = []
              · subst hst
                have heq := tagLoopF_inr cfg cs fuel i [] ss _
                  (tagStep_self_success cfg cs i ss name i4 hc hp)
                refine ⟨?_, ?_, ?_⟩
                · intro k h
                  rw [heq] at h
                  exact absurd h (by simp)
                · intro st ssv h
                  rw [heq] at h
                  exact absurd h (by simp)
                · intro a b h
                  rw [heq] at h
                  injection h with ha hb
                  subst ha
                  subst hb
                  exact ⟨hssv.1, hssv.2.1, by omega⟩
              · have heq := tagLoopF_inl cfg cs fuel i stack ss i4 stack (some (ss.getD i))
                  (tagStep_self_continue cfg cs i stack ss name i4 hc hp hst)
                obtain ⟨q1, q2, q3⟩ := ih i4 stack (some (ss.getD i))
                  (by
                    intro k hk
                    injection hk with hk
                    subst hk
                    exact ⟨hst, hssv.1, hssv.2.1, by omega⟩)
                  (by intro hx; exact absurd hx (by simp))
                refine ⟨?_, ?_, ?_⟩
                · intro k h
                  rw [heq] at h
                  exact q1 k h
                · intro st ssv h
                  rw [heq] at h
                  exact q2 st ssv h
                · intro a b h
                  rw [heq] at h
                  exact q3 a b h
            | false =>
              have heq := tagLoopF_inl cfg cs fuel i stack ss i4 (name :: stack)
                (some (ss.getD i)) (tagStep_open cfg cs i stack ss name i4 hc hp)
              obtain ⟨q1, q2, q3⟩ := ih i4 (name :: stack) (some (ss.getD i))
                (by
                  intro k hk
                  injection hk with hk
                  subst hk
                  exact ⟨by simp, hssv.1, hssv.2.1, by omega⟩)
                (by intro hx; exact absurd hx (by simp))
              refine ⟨?_, ?_, ?_⟩
              · intro k h
                rw [heq] at h
                exact q1 k h
              · intro st ssv h
                rw [heq] at h
                exact q2 st ssv h
              · intro a b h
                rw [heq] at h
                exact q3 a b h
      · have heq := tagLoopF_inl cfg cs fuel i stack ss (i + 1) stack ss
          (tagStep_skip cfg cs i stack ss c hc hch)
        obtain ⟨q1, q2, q3⟩ := ih (i + 1) stack ss
          (by
            intro k hk
            obtain ⟨w1, w2, w3, w4⟩ := hss k hk
            exact ⟨w1, w2, w3, by omega⟩)
          (by
            intro hn
            obtain ⟨w1, w2⟩ := hnone hn
            refine ⟨w1, ?_⟩
            intro j hj
            rcases Nat.lt_or_ge j i with hji | hji
            · exact w2 j hji
            · have hji2 : j = i := by omega
              subst hji2
              rw [hc]
              intro hx
              injection hx with hx
              exact hch hx)
        refine ⟨?_, ?_, ?_⟩
        · intro k h
          rw [heq] at h
          exact q1 k h
        · intro st ssv h
          rw [heq] at h
          exact q2 st ssv h
        · intro a b h
          rw [heq] at h
          exact q3 a b h

/-- C7: whenever the tag engine reaches end of input with a non-empty
tag-name stack, it returns status fail with comments naming the most
recently opened still-unclosed tag (the stack top) and `raw` set to the
slice from the first `<` (the snippet start) to the end of the input. -/
theorem c7_unclosed_tag_failure (cs : List Char) (cfg : TagCfg) (st : List (List Char))
    (ssv : Option Nat) (h : tagLoop cs cfg = .endUnclosed st ssv) :
    ∃ top rest k, st = top :: rest ∧ ssv = some k ∧ charAt? cs k = some '<' ∧
      (∀ j, j < k → ¬ charAt? cs j = some '<') ∧
      snipByTag (.str cs) cfg =
        { status := "fail", comments := "Unclosed tag <" ++ String.mk top ++ ">."
          data := none, raw := some (.str (cs.drop k)) } := by
  obtain ⟨_, q2, _⟩ := tagLoopF_inv cfg cs (cs.length + 1) 0 [] none
    (fun k hk => absurd hk (by simp))
    (fun _ => ⟨rfl, fun j hj => absurd hj (by omega)⟩)
  obtain ⟨hne, k, hk1, hk2, hk3⟩ := q2 st ssv h
  cases st with
  | nil => exact absurd rfl hne
  | cons top rest =>
    cases cs with
    | nil =>
      rw [show tagLoop ([] : List Char) cfg = TagOut.noTags from rfl] at h
      exact absurd h (by simp)
    | cons a as =>
      subst hk1
      refine ⟨top, rest, k, rfl, rfl, hk2, hk3, ?_⟩
      show renderTag (a :: as) (tagLoop (a :: as) cfg) = _
      rw [h]
      rfl

/-- Witness for C7 at the concrete input `<section><p>text`: the loop ends
unclosed with `p` on top of the stack, the snippet starts at the first `<`
(index 0), and the engine reports `Unclosed tag <p>.` with raw spanning to
the end of input. -/
theorem c7_witness :
    ∃ top rest k,
      ([['p'], ['s', 'e', 'c', 't', 'i', 'o', 'n']] : List (List Char)) = top :: rest ∧
      (some 0 : Option Nat) = some k ∧
      charAt? "<section><p>text".data k = some '<' ∧
      (∀ j, j < k → ¬ charAt? "<section><p>text".data j = some '<') ∧
      snipByTag (.str "<section><p>text".data) {} =
        { status := "fail", comments := "Unclosed tag <" ++ String.mk top ++ ">."
          data := none, raw := some (.str ("<section><p>text".data.drop k)) } :=
  c7_unclosed_tag_failure "<section><p>text".data {}
    [['p'], ['s', 'e', 'c', 't', 'i', 'o', 'n']] (some 0) (by decide)

/-- C9: the end-of-input state in which a snippet start has been recorded
but the tag-name stack is empty is unreachable (balance is checked
immediately after every processed tag and yields an immediate success
return), so the engine's "Incomplete tag structure." failure branch can
never execute: no loop outcome is `endIncomplete`, and no `snipByTag`
result ever carries that comment. -/
theorem c9_incomplete_branch_dead (cs : List Char) (cfg : TagCfg) (v : JsVal) :
    (∀ k, ¬ tagLoop cs cfg = .endIncomplete k)
    ∧ ¬ (snipByTag v cfg).comments = "Incomplete tag structure." := by
  have hdead : ∀ (cs2 : List Char) (k : Nat), ¬ tagLoop cs2 cfg = .endIncomplete k := by
    intro cs2
    exact (tagLoopF_inv cfg cs2 (cs2.length + 1) 0 [] none
      (fun k hk => absurd hk (by simp))
      (fun _ => ⟨rfl, fun j hj => absurd hj (by omega)⟩)).1
  refine ⟨hdead cs, ?_⟩
  have hinv : ¬ ("Invalid input: content must be a non-empty string." : String) =
      "Incomplete tag structure." := by decide
  cases v with
  | json j => exact hinv
  | other => exact hinv
  | str s =>
    cases s with
    | nil => exact hinv
    | cons a as =>
      show ¬ (renderTag (a :: as) (tagLoop (a :: as) cfg)).comments = _
      cases hout : tagLoop (a :: as) cfg with
      | success p q =>
        exact (by decide : ¬ ("Valid tag structure found." : String) =
          "Incomplete tag structure.")
      | invalidName ss stop =>
        exact (by decide : ¬ ("Invalid tag name." : String) = "Incomplete tag structure.")
      | noTags =>
        exact (by decide : ¬ ("No tags found." : String) = "Incomplete tag structure.")
      | endIncomplete k => exact absurd hout (hdead (a :: as) k)
      | mismatch expected found ss stop =>
        intro hcom
        have h2 := congrArg (fun s : String => s.data.head?) hcom
        have h3 : some 'M' = some 'I' := h2
        exact absurd h3 (by decide)
      | endUnclosed stk ss =>
        intro hcom
        have h2 := congrArg (fun s : String => s.data.head?) hcom
        have h3 : some 'U' = some 'I' := h2
        exact absurd h3 (by decide)

/-! ### Tag-engine lemmas: shifting by a dropped prefix, and truncation -/

theorem charAt?_none_ge {cs : List Char} {i : Nat} (h : charAt? cs i = none) :
    cs.length ≤ i :=
  List.get?_eq_none.mp h

theorem charAt?_drop (cs : List Char) (k j : Nat) :
    charAt? (cs.drop k) j = charAt? cs (k + j) := by
  simp [charAt?, List.get?_drop]

theorem charAt?_take (cs : List Char) (n j : Nat) (h : j < n) :
    charAt? (cs.take n) j = charAt? cs j :=
  List.get?_take h

theorem sliceL_drop (cs : List Char) (k a b : Nat) :
    sliceL cs (k + a) (k + b) = sliceL (cs.drop k) a b := by
  show (cs.drop (k + a)).take (k + b - (k + a)) = ((cs.drop k).drop a).take (b - a)
  rw [List.drop_drop]
  have h1 : k + b - (k + a) = b - a := by omega
  rw [h1]

theorem sliceL_take (cs : List Char) (n a b : Nat) (h : b ≤ n) :
    sliceL (cs.take n) a b = sliceL cs a b := by
  show ((cs.take n).drop a).take (b - a) = (cs.drop a).take (b - a)
  rw [List.drop_take]
  rw [List.take_take]
  congr 1
  omega

theorem takeWhile_take (p : Char → Bool) :
    ∀ (l : List Char) (m : Nat), (l.takeWhile p).length ≤ m →
      (l.take m).takeWhile p = l.takeWhile p := by
  intro l
  induction l with
  | nil =>
    intro m _
    simp
  | cons c rest ih =>
    intro m hm
    by_cases hp : p c = true
    · rw [List.takeWhile_cons, if_pos hp] at hm
      simp only [List.length_cons] at hm
      cases m with
      | zero => omega
      | succ m2 =>
        rw [show (c :: rest).take (m2 + 1) = c :: rest.take m2 from rfl]
        simp only [List.takeWhile_cons, if_pos hp]
        rw [ih m2 (by omega)]
    · simp only [List.takeWhile_cons, if_neg hp]
      cases m with
      | zero => simp
      | succ m2 =>
        rw [show (c :: rest).take (m2 + 1) = c :: rest.take m2 from rfl]
        simp only [List.takeWhile_cons, if_neg hp]

theorem scanNameEnd_drop (cs : List Char) (k j : Nat) :
    scanNameEnd cs (k + j) = k + scanNameEnd (cs.drop k) j := by
  unfold scanNameEnd
  rw [List.drop_drop]
  omega

theorem scanNameEnd_take (cs : List Char) (n j : Nat) (h : scanNameEnd cs j ≤ n) :
    scanNameEnd (cs.take n) j = scanNameEnd cs j := by
  unfold scanNameEnd at h ⊢
  rw [List.drop_take]
  rw [takeWhile_take isTagNameChar (cs.drop j) (n - j) (by omega)]

theorem skipToTagEndAux_take :
    ∀ (l : List Char) (m nn : Nat), (skipToTagEndAux l nn).1 ≤ nn + m →
      skipToTagEndAux (l.take m) nn = skipToTagEndAux l nn := by
  intro l
  induction l with
  | nil =>
    intro m nn _
    simp
  | cons c rest ih =>
    intro m nn hm
    rw [skipToTagEndAux] at hm ⊢
    by_cases h1 : c = '>'
    · rw [if_pos h1] at hm ⊢
      cases m with
      | zero => rfl
      | succ m2 =>
        rw [show (c :: rest).take (m2 + 1) = c :: rest.take m2 from rfl]
        rw [skipToTagEndAux, if_pos h1]
    · rw [if_neg h1] at hm ⊢
      by_cases h2 : c = '/' ∧ charAt? rest 0 = some '>'
      · rw [if_pos h2] at hm ⊢
        cases m with
        | zero => omega
        | succ m2 =>
          cases m2 with
          | zero => omega
          | succ m3 =>
            rw [show (c :: rest).take (m3 + 1 + 1) = c :: rest.take (m3 + 1) from rfl]
            rw [skipToTagEndAux, if_neg h1]
            rw [if_pos ⟨h2.1, by
              rw [charAt?_take rest (m3 + 1) 0 (by omega)]
              exact h2.2⟩]
      · rw [if_neg h2] at hm ⊢
        cases m with
        | zero =>
          have := skipToTagEndAux_ge rest (nn + 1)
          omega
        | succ m2 =>
          rw [show (c :: rest).take (m2 + 1) = c :: rest.take m2 from rfl]
          rw [skipToTagEndAux, if_neg h1]
          rw [if_neg (by
            intro hx
            apply h2
            refine ⟨hx.1, ?_⟩
            have hm2 : 0 < m2 := by
              by_contra hz
              push_neg at hz
              have hm0 : m2 = 0 := by omega
              subst hm0
              exact absurd hx.2 (by simp [charAt?])
            rw [← charAt?_take rest m2 0 hm2]
            exact hx.2)]
          exact ih m2 (nn + 1) (by omega)

theorem skipToTagEnd_drop (cs : List Char) (k j : Nat) :
    skipToTagEnd cs (k + j) =
      (k + (skipToTagEnd (cs.drop k) j).1, (skipToTagEnd (cs.drop k) j).2) := by
  unfold skipToTagEnd
  rw [List.drop_drop, Nat.add_assoc]


theorem skipToTagEnd_take (cs : List Char) (n j : Nat) (h : (skipToTagEnd cs j).1 ≤ n) :
    skipToTagEnd (cs.take n) j = skipToTagEnd cs j := by
  unfold skipToTagEnd at h ⊢
  rw [List.drop_take]
  rw [skipToTagEndAux_take (cs.drop j) (n - j) 0 (by omega)]

theorem tagNext_drop (cs : List Char) (k i2 : Nat) :
    tagNext cs (k + i2) = k + tagNext (cs.drop k) i2 := by
  unfold tagNext
  rw [scanNameEnd_drop cs k i2, skipToTagEnd_drop cs k (scanNameEnd (cs.drop k) i2)]
  rw [← charAt?_drop cs k ((skipToTagEnd (cs.drop k) (scanNameEnd (cs.drop k) i2)).1)]
  by_cases hc : charAt? (cs.drop k) (skipToTagEnd (cs.drop k) (scanNameEnd (cs.drop k) i2)).1 =
      some '>'
  · rw [if_pos hc, if_pos hc]
    simp
    omega
  · rw [if_neg hc, if_neg hc]

theorem tagNext_take (cs : List Char) (n i2 : Nat) (h : tagNext cs i2 ≤ n) :
    tagNext (cs.take n) i2 = tagNext cs i2 := by
  have hge := skipToTagEnd_ge cs (scanNameEnd cs i2)
  have hge2 := scanNameEnd_ge cs i2
  by_cases hc : charAt? cs (skipToTagEnd cs (scanNameEnd cs i2)).1 = some '>'
  · have hval : tagNext cs i2 = (skipToTagEnd cs (scanNameEnd cs i2)).1 + 1 := by
      unfold tagNext
      rw [if_pos hc]
    have hi3 : (skipToTagEnd cs (scanNameEnd cs i2)).1 < n := by omega
    have hne : scanNameEnd cs i2 ≤ n := by omega
    unfold tagNext
    rw [scanNameEnd_take cs n i2 hne, skipToTagEnd_take cs n (scanNameEnd cs i2) (by omega)]
    rw [charAt?_take cs n _ hi3]
  · have hval : tagNext cs i2 = (skipToTagEnd cs (scanNameEnd cs i2)).1 := by
      unfold tagNext
      rw [if_neg hc]
    have hi3 : (skipToTagEnd cs (scanNameEnd cs i2)).1 ≤ n := by omega
    have hne : scanNameEnd cs i2 ≤ n := by omega
    unfold tagNext
    rw [scanNameEnd_take cs n i2 hne, skipToTagEnd_take cs n (scanNameEnd cs i2) hi3]
    by_cases hlt : (skipToTagEnd cs (scanNameEnd cs i2)).1 < n
    · rw [charAt?_take cs n _ hlt]
    · have hnone : charAt? (cs.take n) (skipToTagEnd cs (scanNameEnd cs i2)).1 = none := by
        apply List.get?_len_le
        have hlen : (cs.take n).length ≤ n := by simp
        omega
      rw [if_neg (by rw [hnone]; simp), if_neg hc]

theorem readTagName_drop (cs : List Char) (cfg : TagCfg) (k i2 : Nat) :
    readTagName cs cfg (k + i2) = readTagName (cs.drop k) cfg i2 := by
  unfold readTagName
  rw [scanNameEnd_drop cs k i2, sliceL_drop cs k i2 (scanNameEnd (cs.drop k) i2)]

theorem readTagName_take (cs : List Char) (cfg : TagCfg) (n i2 : Nat)
    (h : scanNameEnd cs i2 ≤ n) :
    readTagName (cs.take n) cfg i2 = readTagName cs cfg i2 := by
  unfold readTagName
  rw [scanNameEnd_take cs n i2 h, sliceL_take cs n i2 (scanNameEnd cs i2) h]

theorem tagAfterName_drop (cs : List Char) (cfg : TagCfg) (closing : Bool) (k i2 : Nat) :
    tagAfterName cs cfg closing (k + i2) =
      (match tagAfterName (cs.drop k) cfg closing i2 with
       | .invalidName ne => .invalidName (k + ne)
       | .tag cl nm sc i4 => .tag cl nm sc (k + i4)) := by
  unfold tagAfterName
  rw [scanNameEnd_drop cs k i2, sliceL_drop cs k i2 (scanNameEnd (cs.drop k) i2)]
  by_cases hempty : jsTrimL (sliceL (cs.drop k) i2 (scanNameEnd (cs.drop k) i2)) = []
  · rw [if_pos hempty, if_pos hempty]
  · rw [if_neg hempty, if_neg hempty]
    have h1 : readTagName cs cfg (k + i2) = readTagName (cs.drop k) cfg i2 :=
      readTagName_drop cs cfg k i2
    have h2 := skipToTagEnd_drop cs k (scanNameEnd (cs.drop k) i2)
    have h3 : tagNext cs (k + i2) = k + tagNext (cs.drop k) i2 := tagNext_drop cs k i2
    rw [h1, h2, h3]

theorem tagAfterName_take (cs : List Char) (cfg : TagCfg) (closing : Bool) (n i2 : Nat) :
    (∀ ne, tagAfterName cs cfg closing i2 = .invalidName ne → ne ≤ n →
      tagAfterName (cs.take n) cfg closing i2 = .invalidName ne)
    ∧ (∀ cl nm sc i4, tagAfterName cs cfg closing i2 = .tag cl nm sc i4 → i4 ≤ n →
      tagAfterName (cs.take n) cfg closing i2 = .tag cl nm sc i4) := by
  constructor
  · intro ne hne hle
    unfold tagAfterName at hne ⊢
    by_cases hempty : jsTrimL (sliceL cs i2 (scanNameEnd cs i2)) = []
    · rw [if_pos hempty] at hne
      have hval : scanNameEnd cs i2 = ne := by cases hne; rfl
      subst hval
      rw [scanNameEnd_take cs n i2 hle, sliceL_take cs n i2 (scanNameEnd cs i2) hle]
      rw [if_pos hempty]
    · rw [if_neg hempty] at hne
      exact absurd hne (by simp)
  · intro cl nm sc i4 htag hle
    unfold tagAfterName at htag ⊢
    by_cases hempty : jsTrimL (sliceL cs i2 (scanNameEnd cs i2)) = []
    · rw [if_pos hempty] at htag
      exact absurd htag (by simp)
    · rw [if_neg hempty] at htag
      have hval : tagNext cs i2 = i4 := by cases htag; rfl
      have hge := skipToTagEnd_ge cs (scanNameEnd cs i2)
      have g3 : (skipToTagEnd cs (scanNameEnd cs i2)).1 ≤ tagNext cs i2 := by
        unfold tagNext
        by_cases hc : charAt? cs (skipToTagEnd cs (scanNameEnd cs i2)).1 = some '>'
        · rw [if_pos hc]
          omega
        · rw [if_neg hc]
      have hne2 : scanNameEnd cs i2 ≤ n := by omega
      have hskip : skipToTagEnd (cs.take n) (scanNameEnd cs i2) =
          skipToTagEnd cs (scanNameEnd cs i2) :=
        skipToTagEnd_take cs n (scanNameEnd cs i2) (by omega)
      have hread : readTagName (cs.take n) cfg i2 = readTagName cs cfg i2 :=
        readTagName_take cs cfg n i2 hne2
      have hnext : tagNext (cs.take n) i2 = tagNext cs i2 := tagNext_take cs n i2 (by omega)
      rw [scanNameEnd_take cs n i2 hne2, sliceL_take cs n i2 (scanNameEnd cs i2) hne2]
      rw [if_neg hempty]
      rw [hskip, hread, hnext]
      exact htag

theorem processTag_drop (cs : List Char) (cfg : TagCfg) (k i : Nat) :
    processTag cs cfg (k + i) =
      (match processTag (cs.drop k) cfg i with
       | .invalidName ne => .invalidName (k + ne)
       | .tag cl nm sc i4 => .tag cl nm sc (k + i4)) := by
  unfold processTag
  have hc : charAt? cs (k + i + 1) = charAt? (cs.drop k) (i + 1) := by
    rw [charAt?_drop cs k (i + 1), Nat.add_assoc]
  rw [hc]
  by_cases hsl : charAt? (cs.drop k) (i + 1) = some '/'
  · rw [if_pos hsl, if_pos hsl]
    have : k + i + 2 = k + (i + 2) := by omega
    rw [this]
    exact tagAfterName_drop cs cfg true k (i + 2)
  · rw [if_neg hsl, if_neg hsl]
    have : k + i + 1 = k + (i + 1) := by omega
    rw [this]
    exact tagAfterName_drop cs cfg false k (i + 1)

theorem processTag_take (cs : List Char) (cfg : TagCfg) (n i : Nat)
    (cl : Bool) (nm : List Char) (sc : Bool) (i4 : Nat)
    (htag : processTag cs cfg i = .tag cl nm sc i4) (hle : i4 ≤ n) :
    processTag (cs.take n) cfg i = .tag cl nm sc i4 := by
  unfold processTag at htag ⊢
  by_cases hsl : charAt? cs (i + 1) = some '/'
  · rw [if_pos hsl] at htag
    obtain ⟨hb1, hb2⟩ := (tagAfterName_bounds cs cfg true (i + 2)).2 cl nm sc i4 htag
    have hlt : i + 1 < n := by omega
    rw [if_pos (by rw [charAt?_take cs n (i + 1) hlt]; exact hsl)]
    exact ((tagAfterName_take cs cfg true n (i + 2)).2 cl nm sc i4 htag hle)
  · rw [if_neg hsl] at htag
    by_cases hlt : i + 1 < n
    · rw [if_neg (by rw [charAt?_take cs n (i + 1) hlt]; exact hsl)]
      exact ((tagAfterName_take cs cfg false n (i + 1)).2 cl nm sc i4 htag hle)
    · have hnone : charAt? (cs.take n) (i + 1) = none := by
        apply List.get?_len_le
        have hlen : (cs.take n).length ≤ n := by simp
        omega
      rw [if_neg (by rw [hnone]; simp)]
      exact ((tagAfterName_take cs cfg false n (i + 1)).2 cl nm sc i4 htag hle)

/-- A continuing loop step advances the read index by at least one, and
only happens strictly inside the text. -/
theorem tagStep_inl_advance (cfg : TagCfg) (cs : List Char) (i : Nat)
    (stack : List (List Char)) (ss : Option Nat) (i2 : Nat) (st2 : List (List Char))
    (ss2 : Option Nat) (h : tagStep cfg cs i stack ss = .inl (i2, st2, ss2)) :
    i + 1 ≤ i2 ∧ i < cs.length := by
  cases hc : charAt? cs i with
  | none =>
    cases stack with
    | cons t rest =>
      rw [tagStep_eoi_unclosed cfg cs i t rest ss hc] at h
      exact absurd h (by simp)
    | nil =>
      cases ss with
      | some k =>
        rw [tagStep_eoi_incomplete cfg cs i k hc] at h
        exact absurd h (by simp)
      | none =>
        rw [tagStep_eoi_notags cfg cs i hc] at h
        exact absurd h (by simp)
  | some c =>
    by_cases hch : c = '<'
    · subst hch
      cases hp : processTag cs cfg i with
      | invalidName ne =>
        rw [tagStep_invalid cfg cs i stack ss ne hc hp] at h
        exact absurd h (by simp)
      | tag closing name selfC i4 =>
        have hi4 : i + 1 ≤ i4 :=
          ((processTag_bounds cs cfg i).2 closing name selfC i4 hp).1
        cases closing with
        | true =>
          cases stack with
          | nil =>
            rw [tagStep_close_empty cfg cs i ss name selfC i4 hc hp] at h
            exact absurd h (by simp)
          | cons top rest =>
            by_cases htop : top = name
            · subst htop
              by_cases hrest : rest = []
              · subst hrest
                rw [tagStep_close_success cfg cs i ss top selfC i4 hc hp] at h
                exact absurd h (by simp)
              · rw [tagStep_close_continue cfg cs i rest ss top selfC i4 hc hp hrest] at h
                cases h
                exact ⟨by omega, charAt?_lt hc⟩
            · rw [tagStep_close_mismatch cfg cs i top rest ss name selfC i4 hc hp htop] at h
              exact absurd h (by simp)
        | false =>
          cases selfC with
          | true =>
            by_cases hst : stack = []
            · subst hst
              rw [tagStep_self_success cfg cs i ss name i4 hc hp] at h
              exact absurd h (by simp)
            · rw [tagStep_self_continue cfg cs i stack ss name i4 hc hp hst] at h
              cases h
              exact ⟨by omega, charAt?_lt hc⟩
          | false =>
            rw [tagStep_open cfg cs i stack ss name i4 hc hp] at h
            cases h
            exact ⟨by omega, charAt?_lt hc⟩
    · rw [tagStep_skip cfg cs i stack ss c hc hch] at h
      cases h
      exact ⟨by omega, charAt?_lt hc⟩

/-- The loop result does not depend on the fuel, as long as there is more
fuel than remaining text. -/
theorem tagLoopF_fuel (cfg : TagCfg) (cs : List Char) :
    ∀ (f g i : Nat) (stack : List (List Char)) (ss : Option Nat),
      cs.length - i < f → cs.length - i < g →
      tagLoopF cfg cs f i stack ss = tagLoopF cfg cs g i stack ss := by
  intro f
  induction f with
  | zero =>
    intro g i stack ss hf _
    omega
  | succ f ih =>
    intro g i stack ss hf hg
    cases g with
    | zero => omega
    | succ g =>
      cases hstep : tagStep cfg cs i stack ss with
      | inr out =>
        rw [tagLoopF_inr cfg cs f i stack ss out hstep,
          tagLoopF_inr cfg cs g i stack ss out hstep]
      | inl s =>
        obtain ⟨i2, st2, ss2⟩ := s
        obtain ⟨hadv, hlen⟩ := tagStep_inl_advance cfg cs i stack ss i2 st2 ss2 hstep
        rw [tagLoopF_inl cfg cs f i stack ss i2 st2 ss2 hstep,
          tagLoopF_inl cfg cs g i stack ss i2 st2 ss2 hstep]
        exact ih g i2 st2 ss2 (by omega) (by omega)

/-- Before the first `<`, the loop only skips characters: it computes the
same outcome as if started at the first `<` directly. -/
theorem tagLoopF_skipTo (cfg : TagCfg) (cs : List Char) (k : Nat) (hk : k < cs.length) :
    ∀ (d j f g : Nat), j + d = k →
      (∀ m, j ≤ m → m < k → ¬ charAt? cs m = some '<') →
      cs.length - j < f → cs.length - k < g →
      tagLoopF cfg cs f j [] none = tagLoopF cfg cs g k [] none := by
  intro d
  induction d with
  | zero =>
    intro j f g hjk hfirst hf hg
    have hjeq : j = k := by omega
    subst hjeq
    exact tagLoopF_fuel cfg cs f g j [] none hf hg
  | succ d ih =>
    intro j f g hjk hfirst hf hg
    have hjlt : j < cs.length := by omega
    cases hc : charAt? cs j with
    | none => exact absurd (charAt?_none_ge hc) (by omega)
    | some c =>
      have hch : ¬ c = '<' := by
        intro hx
        subst hx
        exact hfirst j (le_refl j) (by omega) hc
      cases f with
      | zero => omega
      | succ f =>
        rw [tagLoopF_inl cfg cs f j [] none (j + 1) [] none
          (tagStep_skip cfg cs j [] none c hc hch)]
        exact ih (j + 1) f g (by omega) (fun m hm1 hm2 => hfirst m (by omega) hm2)
          (by omega) hg

/-- Dropping a prefix of length `k` shifts every index in the loop outcome
by `k` but changes nothing else. -/
theorem tagLoopF_drop (cfg : TagCfg) (cs : List Char) (k : Nat) :
    ∀ (fuel j : Nat) (stack : List (List Char)) (ss : Option Nat),
      tagLoopF cfg cs fuel (k + j) stack (ss.map (k + ·)) =
        shiftTagOut k (tagLoopF cfg (cs.drop k) fuel j stack ss) := by
  intro fuel
  induction fuel with
  | zero =>
    intro j stack ss
    rfl
  | succ fuel ih =>
    intro j stack ss
    have hgd : (ss.map (k + ·)).getD (k + j) = k + ss.getD j := by
      cases ss <;> rfl
    cases hc : charAt? (cs.drop k) j with
    | none =>
      have hc2 : charAt? cs (k + j) = none := by
        rw [← charAt?_drop cs k j]
        exact hc
      cases stack with
      | cons t rest =>
        rw [tagLoopF_inr cfg cs fuel (k + j) (t :: rest) (ss.map (k + ·)) _
          (tagStep_eoi_unclosed cfg cs (k + j) t rest (ss.map (k + ·)) hc2)]
        rw [tagLoopF_inr cfg (cs.drop k) fuel j (t :: rest) ss _
          (tagStep_eoi_unclosed cfg (cs.drop k) j t rest ss hc)]
        rfl
      | nil =>
        cases ss with
        | some k0 =>
          rw [tagLoopF_inr cfg (cs.drop k) fuel j [] (some k0) _
            (tagStep_eoi_incomplete cfg (cs.drop k) j k0 hc)]
          have hstep : tagStep cfg cs (k + j) [] ((some k0).map (k + ·)) =
              .inr (.endIncomplete (k + k0)) :=
            tagStep_eoi_incomplete cfg cs (k + j) (k + k0) hc2
          rw [tagLoopF_inr cfg cs fuel (k + j) [] ((some k0).map (k + ·)) _ hstep]
          rfl
        | none =>
          rw [tagLoopF_inr cfg (cs.drop k) fuel j [] none _
            (tagStep_eoi_notags cfg (cs.drop k) j hc)]
          have hstep : tagStep cfg cs (k + j) [] ((none : Option Nat).map (k + ·)) =
              .inr .noTags :=
            tagStep_eoi_notags cfg cs (k + j) hc2
          rw [tagLoopF_inr cfg cs fuel (k + j) [] ((none : Option Nat).map (k + ·)) _ hstep]
          rfl
    | some c =>
      have hc2 : charAt? cs (k + j) = some c := by
        rw [← charAt?_drop cs k j]
        exact hc
      by_cases hch : c = '<'
      · subst hch
        cases hp : processTag (cs.drop k) cfg j with
        | invalidName ne =>
          have hp2 : processTag cs cfg (k + j) = .invalidName (k + ne) := by
            rw [processTag_drop cs cfg k j, hp]
          rw [tagLoopF_inr cfg cs fuel (k + j) stack (ss.map (k + ·)) _
            (tagStep_invalid cfg cs (k + j) stack (ss.map (k + ·)) (k + ne) hc2 hp2)]
          rw [tagLoopF_inr cfg (cs.drop k) fuel j stack ss _
            (tagStep_invalid cfg (cs.drop k) j stack ss ne hc hp)]
          rw [show shiftTagOut k (.invalidName (some (ss.getD j)) ne) =
            .invalidName (some (k + ss.getD j)) (k + ne) from rfl]
          rw [hgd]
        | tag closing name selfC i4 =>
          have hp2 : processTag cs cfg (k + j) = .tag closing name selfC (k + i4) := by
            rw [processTag_drop cs cfg k j, hp]
          cases closing with
          | true =>
            cases stack with
            | nil =>
              rw [tagLoopF_inr cfg cs fuel (k + j) [] (ss.map (k + ·)) _
                (tagStep_close_empty cfg cs (k + j) (ss.map (k + ·)) name selfC (k + i4)
                  hc2 hp2)]
              rw [tagLoopF_inr cfg (cs.drop k) fuel j [] ss _
                (tagStep_close_empty cfg (cs.drop k) j ss name selfC i4 hc hp)]
              rw [show shiftTagOut k (.mismatch none name (some (ss.getD j)) i4) =
                .mismatch none name (some (k + ss.getD j)) (k + i4) from rfl]
              rw [hgd]
            | cons top rest =>
              by_cases htop : top = name
              · subst htop
                by_cases hrest : rest = []
                · subst hrest
                  rw [tagLoopF_inr cfg cs fuel (k + j) [top] (ss.map (k + ·)) _
                    (tagStep_close_success cfg cs (k + j) (ss.map (k + ·)) top selfC
                      (k + i4) hc2 hp2)]
                  rw [tagLoopF_inr cfg (cs.drop k) fuel j [top] ss _
                    (tagStep_close_success cfg (cs.drop k) j ss top selfC i4 hc hp)]
                  rw [show shiftTagOut k (.success (ss.getD j) i4) =
                    .success (k + ss.getD j) (k + i4) from rfl]
                  rw [hgd]
                · rw [tagLoopF_inl cfg cs fuel (k + j) (top :: rest) (ss.map (k + ·))
                    (k + i4) rest (some ((ss.map (k + ·)).getD (k + j)))
                    (tagStep_close_continue cfg cs (k + j) rest (ss.map (k + ·)) top selfC
                      (k + i4) hc2 hp2 hrest)]
                  rw [tagLoopF_inl cfg (cs.drop k) fuel j (top :: rest) ss i4 rest
                    (some (ss.getD j))
                    (tagStep_close_continue cfg (cs.drop k) j rest ss top selfC i4 hc hp
                      hrest)]
                  rw [hgd]
                  exact ih i4 rest (some (ss.getD j))
              · rw [tagLoopF_inr cfg cs fuel (k + j) (top :: rest) (ss.map (k + ·)) _
                  (tagStep_close_mismatch cfg cs (k + j) top rest (ss.map (k + ·)) name
                    selfC (k + i4) hc2 hp2 htop)]
                rw [tagLoopF_inr cfg (cs.drop k) fuel j (top :: rest) ss _
                  (tagStep_close_mismatch cfg (cs.drop k) j top rest ss name selfC i4 hc
                    hp htop)]
                rw [show shiftTagOut k (.mismatch (some top) name (some (ss.getD j)) i4) =
                  .mismatch (some top) name (some (k + ss.getD j)) (k + i4) from rfl]
                rw [hgd]
          | false =>
            cases selfC with
            | true =>
              by_cases hst : stack = []
              · subst hst
                rw [tagLoopF_inr cfg cs fuel (k + j) [] (ss.map (k + ·)) _
                  (tagStep_self_success cfg cs (k + j) (ss.map (k + ·)) name (k + i4)
                    hc2 hp2)]
                rw [tagLoopF_inr cfg (cs.drop k) fuel j [] ss _
                  (tagStep_self_success cfg (cs.drop k) j ss name i4 hc hp)]
                rw [show shiftTagOut k (.success (ss.getD j) i4) =
                  .success (k + ss.getD j) (k + i4) from rfl]
                rw [hgd]
              · rw [tagLoopF_inl cfg cs fuel (k + j) stack (ss.map (k + ·)) (k + i4) stack
                  (some ((ss.map (k + ·)).getD (k + j)))
                  (tagStep_self_continue cfg cs (k + j) stack (ss.map (k + ·)) name
                    (k + i4) hc2 hp2 hst)]
                rw [tagLoopF_inl cfg (cs.drop k) fuel j stack ss i4 stack (some (ss.getD j))
                  (tagStep_self_continue cfg (cs.drop k) j stack ss name i4 hc hp hst)]
                rw [hgd]
                exact ih i4 stack (some (ss.getD j))
            | false =>
              rw [tagLoopF_inl cfg cs fuel (k + j) stack (ss.map (k + ·)) (k + i4)
                (name :: stack) (some ((ss.map (k + ·)).getD (k + j)))
                (tagStep_open cfg cs (k + j) stack (ss.map (k + ·)) name (k + i4) hc2 hp2)]
              rw [tagLoopF_inl cfg (cs.drop k) fuel j stack ss i4 (name :: stack)
                (some (ss.getD j)) (tagStep_open cfg (cs.drop k) j stack ss name i4 hc hp)]
              rw [hgd]
              exact ih i4 (name :: stack) (some (ss.getD j))
      · rw [tagLoopF_inl cfg cs fuel (k + j) stack (ss.map (k + ·)) (k + j + 1) stack
          (ss.map (k + ·)) (tagStep_skip cfg cs (k + j) stack (ss.map (k + ·)) c hc2 hch)]
        rw [tagLoopF_inl cfg (cs.drop k) fuel j stack ss (j + 1) stack ss
          (tagStep_skip cfg (cs.drop k) j stack ss c hc hch)]
        rw [show k + j + 1 = k + (j + 1) from by omega]
        exact ih (j + 1) stack ss

/-- A successful run never looks past the end of the balanced span: the
loop computes the same success on the text truncated at (or after) the
span end. -/
theorem tagLoopF_take (cfg : TagCfg) (cs : List Char) (n : Nat) :
    ∀ (fuel i : Nat) (stack : List (List Char)) (ss : Option Nat) (a b : Nat),
      tagLoopF cfg cs fuel i stack ss = .success a b → b ≤ n →
      tagLoopF cfg (cs.take n) fuel i stack ss = .success a b := by
  intro fuel
  induction fuel with
  | zero =>
    intro i stack ss a b h _
    exact absurd h (by simp [tagLoopF])
  | succ fuel ih =>
    intro i stack ss a b h hb
    obtain ⟨hib, hblen⟩ := tagLoopF_success_mono cfg cs (fuel + 1) i stack ss a b h
    cases hc : charAt? cs i with
    | none =>
      cases stack with
      | cons t rest =>
        rw [tagLoopF_inr cfg cs fuel i (t :: rest) ss _
          (tagStep_eoi_unclosed cfg cs i t rest ss hc)] at h
        exact absurd h (by simp)
      | nil =>
        cases ss with
        | some k =>
          rw [tagLoopF_inr cfg cs fuel i [] (some k) _
            (tagStep_eoi_incomplete cfg cs i k hc)] at h
          exact absurd h (by simp)
        | none =>
          rw [tagLoopF_inr cfg cs fuel i [] none _ (tagStep_eoi_notags cfg cs i hc)] at h
          exact absurd h (by simp)
    | some c =>
      have hci : i < n := by omega
      have hc2 : charAt? (cs.take n) i = some c := by
        rw [charAt?_take cs n i hci]
        exact hc
      by_cases hch : c = '<'
      · subst hch
        cases hp : processTag cs cfg i with
        | invalidName ne =>
          rw [tagLoopF_inr cfg cs fuel i stack ss _
            (tagStep_invalid cfg cs i stack ss ne hc hp)] at h
          exact absurd h (by simp)
        | tag closing name selfC i4 =>
          cases closing with
          | true =>
            cases stack with
            | nil =>
              rw [tagLoopF_inr cfg cs fuel i [] ss _
                (tagStep_close_empty cfg cs i ss name selfC i4 hc hp)] at h
              exact absurd h (by simp)
            | cons top rest =>
              by_cases htop : top = name
              · subst htop
                by_cases hrest : rest = []
                · subst hrest
                  rw [tagLoopF_inr cfg cs fuel i [top] ss _
                    (tagStep_close_success cfg cs i ss top selfC i4 hc hp)] at h
                  have hi4 : i4 = b := by cases h; rfl
                  have hp2 : processTag (cs.take n) cfg i = .tag true top selfC i4 :=
                    processTag_take cs cfg n i true top selfC i4 hp (by omega)
                  rw [tagLoopF_inr cfg (cs.take n) fuel i [top] ss _
                    (tagStep_close_success cfg (cs.take n) i ss top selfC i4 hc2 hp2)]
                  exact h
                · rw [tagLoopF_inl cfg cs fuel i (top :: rest) ss i4 rest (some (ss.getD i))
                    (tagStep_close_continue cfg cs i rest ss top selfC i4 hc hp hrest)] at h
                  obtain ⟨hi4b, _⟩ := tagLoopF_success_mono cfg cs fuel i4 rest
                    (some (ss.getD i)) a b h
                  have hp2 : processTag (cs.take n) cfg i = .tag true top selfC i4 :=
                    processTag_take cs cfg n i true top selfC i4 hp (by omega)
                  rw [tagLoopF_inl cfg (cs.take n) fuel i (top :: rest) ss i4 rest
                    (some (ss.getD i))
                    (tagStep_close_continue cfg (cs.take n) i rest ss top selfC i4 hc2 hp2
                      hrest)]
                  exact ih i4 rest (some (ss.getD i)) a b h hb
              · rw [tagLoopF_inr cfg cs fuel i (top :: rest) ss _
                  (tagStep_close_mismatch cfg cs i top rest ss name selfC i4 hc hp htop)]
                  at h
                exact absurd h (by simp)
          | false =>
            cases selfC with
            | true =>
              by_cases hst : stack = []
              · subst hst
                rw [tagLoopF_inr cfg cs fuel i [] ss _
                  (tagStep_self_success cfg cs i ss name i4 hc hp)] at h
                have hi4 : i4 = b := by cases h; rfl
                have hp2 : processTag (cs.take n) cfg i = .tag false name true i4 :=
                  processTag_take cs cfg n i false name true i4 hp (by omega)
                rw [tagLoopF_inr cfg (cs.take n) fuel i [] ss _
                  (tagStep_self_success cfg (cs.take n) i ss name i4 hc2 hp2)]
                exact h
              · rw [tagLoopF_inl cfg cs fuel i stack ss i4 stack (some (ss.getD i))
                  (tagStep_self_continue cfg cs i stack ss name i4 hc hp hst)] at h
                obtain ⟨hi4b, _⟩ := tagLoopF_success_mono cfg cs fuel i4 stack
                  (some (ss.getD i)) a b h
                have hp2 : processTag (cs.take n) cfg i = .tag false name true i4 :=
                  processTag_take cs cfg n i false name true i4 hp (by omega)
                rw [tagLoopF_inl cfg (cs.take n) fuel i stack ss i4 stack (some (ss.getD i))
                  (tagStep_self_continue cfg (cs.take n) i stack ss name i4 hc2 hp2 hst)]
                exact ih i4 stack (some (ss.getD i)) a b h hb
            | false =>
              rw [tagLoopF_inl cfg cs fuel i stack ss i4 (name :: stack) (some (ss.getD i))
                (tagStep_open cfg cs i stack ss name i4 hc hp)] at h
              obtain ⟨hi4b, _⟩ := tagLoopF_success_mono cfg cs fuel i4 (name :: stack)
                (some (ss.getD i)) a b h
              have hp2 : processTag (cs.take n) cfg i = .tag false name false i4 :=
                processTag_take cs cfg n i false name false i4 hp (by omega)
              rw [tagLoopF_inl cfg (cs.take n) fuel i stack ss i4 (name :: stack)
                (some (ss.getD i)) (tagStep_open cfg (cs.take n) i stack ss name i4 hc2 hp2)]
              exact ih i4 (name :: stack) (some (ss.getD i)) a b h hb
      · rw [tagLoopF_inl cfg cs fuel i stack ss (i + 1) stack ss
          (tagStep_skip cfg cs i stack ss c hc hch)] at h
        rw [tagLoopF_inl cfg (cs.take n) fuel i stack ss (i + 1) stack ss
          (tagStep_skip cfg (cs.take n) i stack ss c hc2 hch)]
        exact ih (i + 1) stack ss a b h hb

/-- C8 counterexample: idempotence fails for the JSON engine.  On the
concrete input `["a\u000Ab"]` the engine returns Success with data
`["a\n b"]` (a string containing a newline); re-serialising that data with
the JSON encoder yields `["a\nb"]` (with a backslash-n escape), and feeding
it back through the engine gives status check, not Success — the engine's
sanitizer rewrites the `\n` escape to a literal newline, which the decoder
then rejects. -/
theorem c8_counterexample :
    (snipJson (.str ['[', '"', 'a', '\\', 'u', '0', '0', '0', 'A', 'b', '"', ']'])).status
        = "success"
    ∧ (snipJson (.str ['[', '"', 'a', '\\', 'u', '0', '0', '0', 'A', 'b', '"', ']'])).data
        = some (.json (.arr [.str ['a', '\n', 'b']]))
    ∧ jsonStringify (.arr [.str ['a', '\n', 'b']]) =
        ['[', '"', 'a', '\\', 'n', 'b', '"', ']']
    ∧ (snipJson (.str (jsonStringify (.arr [.str ['a', '\n', 'b']])))).status = "check" :=
  ⟨rfl, rfl, rfl, rfl⟩

/-- C8 amended: for the tag engine, feeding a Success result's `data`
string back through the engine (same configuration) yields Success with
exactly the same `data`.  (For the JSON engine the corresponding round
trip can fail, because the engine sanitizes its input and rewrites escape
sequences in the re-serialized text — see the counterexample.) -/
theorem c8_amended_tag_idempotent (cs : List Char) (cfg : TagCfg) (d : List Char)
    (h : snipByTag (.str cs) cfg =
      { status := "success", comments := "Valid tag structure found."
        data := some (.str d), raw := none }) :
    snipByTag (.str d) cfg =
      { status := "success", comments := "Valid tag structure found."
        data := some (.str d), raw := none } := by
  cases cs with
  | nil =>
    have hst : ("fail" : String) = "success" := congrArg Result.status h
    exact absurd hst (by decide)
  | cons a as =>
    have h2 : renderTag (a :: as) (tagLoop (a :: as) cfg) =
        { status := "success", comments := "Valid tag structure found."
          data := some (.str d), raw := none } := h
    cases hout : tagLoop (a :: as) cfg with
    | invalidName ss stop =>
      rw [hout] at h2
      have hst : ("fail" : String) = "success" := congrArg Result.status h2
      exact absurd hst (by decide)
    | mismatch e f ss stop =>
      rw [hout] at h2
      have hst : ("fail" : String) = "success" := congrArg Result.status h2
      exact absurd hst (by decide)
    | endUnclosed st ss =>
      rw [hout] at h2
      have hst : ("fail" : String) = "success" := congrArg Result.status h2
      exact absurd hst (by decide)
    | endIncomplete ss =>
      rw [hout] at h2
      have hst : ("fail" : String) = "success" := congrArg Result.status h2
      exact absurd hst (by decide)
    | noTags =>
      rw [hout] at h2
      have hst : ("fail" : String) = "success" := congrArg Result.status h2
      exact absurd hst (by decide)
    | success p q =>
      rw [hout] at h2
      have hdata : some (JsVal.str (sliceL (a :: as) p q)) = some (JsVal.str d) :=
        congrArg Result.data h2
      have hdval : sliceL (a :: as) p q = d := by
        injection hdata with hdata2
        injection hdata2 with hdval2
      obtain ⟨hpq, hqlen⟩ :=
        tagLoopF_success_mono cfg (a :: as) ((a :: as).length + 1) 0 [] none p q hout
      obtain ⟨_, _, hsucc⟩ := tagLoopF_inv cfg (a :: as) ((a :: as).length + 1) 0 [] none
        (fun k hk => absurd hk (by simp))
        (fun _ => ⟨rfl, fun j hj => absurd hj (by omega)⟩)
      obtain ⟨hp1, hp2, hp3⟩ := hsucc p q hout
      have hplen : p < (a :: as).length := charAt?_lt hp1
      have hskip := tagLoopF_skipTo cfg (a :: as) p hplen p 0 ((a :: as).length + 1)
        ((a :: as).length + 1) (by omega) (fun m hm1 hm2 => hp2 m hm2) (by omega) (by omega)
      have hatp : tagLoopF cfg (a :: as) ((a :: as).length + 1) p [] none = .success p q := by
        rw [← hskip]
        exact hout
      have hdrop := tagLoopF_drop cfg (a :: as) p ((a :: as).length + 1) 0 [] none
      have hX : shiftTagOut p
          (tagLoopF cfg ((a :: as).drop p) ((a :: as).length + 1) 0 [] none) =
          .success p q := by
        rw [← hdrop]
        exact hatp
      cases hX2 : tagLoopF cfg ((a :: as).drop p) ((a :: as).length + 1) 0 [] none with
      | invalidName ss stop =>
        rw [hX2] at hX
        have hX3 : TagOut.invalidName (ss.map (p + ·)) (p + stop) = .success p q := hX
        exact absurd hX3 (by simp)
      | mismatch e f ss stop =>
        rw [hX2] at hX
        have hX3 : TagOut.mismatch e f (ss.map (p + ·)) (p + stop) = .success p q := hX
        exact absurd hX3 (by simp)
      | endUnclosed st ss =>
        rw [hX2] at hX
        have hX3 : TagOut.endUnclosed st (ss.map (p + ·)) = .success p q := hX
        exact absurd hX3 (by simp)
      | endIncomplete ss =>
        rw [hX2] at hX
        have hX3 : TagOut.endIncomplete (p + ss) = .success p q := hX
        exact absurd hX3 (by simp)
      | noTags =>
        rw [hX2] at hX
        have hX3 : TagOut.noTags = .success p q := hX
        exact absurd hX3 (by simp)
      | success a2 b2 =>
        rw [hX2] at hX
        have hX3 : TagOut.success (p + a2) (p + b2) = .success p q := hX
        injection hX3 with h1 h2
        have ha2 : a2 = 0 := by omega
        have hb2 : p + b2 = q := h2
        subst ha2
        have htake := tagLoopF_take cfg ((a :: as).drop p) b2 ((a :: as).length + 1) 0 []
          none 0 b2 hX2 (le_refl b2)
        have hd : ((a :: as).drop p).take b2 = d := by
          rw [← hdval]
          show ((a :: as).drop p).take b2 = ((a :: as).drop p).take (q - p)
          congr 1
          omega
        have hdlen : d.length = b2 := by
          rw [← hd]
          rw [List.length_take, List.length_drop]
          omega
        have hdfuel : tagLoopF cfg d (d.length + 1) 0 [] none = .success 0 b2 := by
          rw [tagLoopF_fuel cfg d (d.length + 1) ((a :: as).length + 1) 0 [] none
            (by omega) (by omega)]
          rw [← hd]
          exact htake
        have hbpos : 0 < b2 := by omega
        have hdne : ¬ d = [] := by
          intro hnil
          rw [hnil] at hdlen
          simp at hdlen
          omega
        show (if d = [] then invalidInputResult else renderTag d (tagLoop d cfg)) =
          { status := "success", comments := "Valid tag structure found."
            data := some (.str d), raw := none }
        rw [if_neg hdne]
        have htl : tagLoop d cfg = .success 0 b2 := hdfuel
        rw [htl]
        have hsl : sliceL d 0 b2 = d := by
          show (d.drop 0).take (b2 - 0) = d
          rw [List.drop_zero]
          exact List.take_all_of_le (by omega)
        simp only [renderTag]
        rw [hsl]

/-- Witness for the amended C8 at a concrete input: the tag engine's own
Success data for `<b>x</b>` round-trips to the same Success. -/
theorem c8_amended_witness :
    snipByTag (.str "<b>x</b>".data) {} =
      { status := "success", comments := "Valid tag structure found."
        data := some (.str "<b>x</b>".data), raw := none } :=
  c8_amended_tag_idempotent "<b>x</b>".data {} "<b>x</b>".data rfl

end SnipSmart
